import Mathlib

/-!
Verification development for the entry-template rendering engine
(`rendercv/renderer/templater/entry_templates_from_input.py`).

Strings are modelled as Lean `String`s, manipulated through their
underlying `List Char`.  Python-specific behaviours are embedded
explicitly:

* `str.rstrip` / regex whitespace classes use the ASCII whitespace set
  (the source only ever introduces `' '` and `'\n'`, so the restriction
  to ASCII is faithful on all data the engine produces);
* `str.splitlines` is embedded with `'\n'` as the line boundary (the
  only boundary character the engine itself introduces);
* the regexes of the source are embedded by their action:
  `\b[A-Z_]+\b` (findall) as maximal word-character runs consisting of
  uppercase letters/underscore, `\S*(?:T1|...|Tn)\S*` (sub with "") as
  removal of every maximal non-whitespace run containing one of the
  tokens as a substring, and `[^A-Za-z0-9.!?\[\]\(\)\*_%]+$` (sub with
  "") as dropping the maximal trailing run of characters outside the
  allowed set;
* exceptions (`RenderCVInternalError`) are `Except String`;
* Python truthiness of field values is `Value.truthy`.

External collaborators (locale date formatters, URL cleaner, the
placeholder substitutor) are out of scope for the source file and are
modelled as opaque function parameters gathered in `Externals`; the
locale and the reference "current date" are folded into those functions
since the engine only threads them through.
-/

/-- Python `str.isspace`-style ASCII whitespace (`\s` of the `re` module,
restricted to ASCII). -/
def isPySpace (c : Char) : Bool :=
  c = ' ' || c = '\t' || c = '\n' || c = '\r' || c = '\x0b' || c = '\x0c'

/-- Word character of Python's `re` module (`\w`, ASCII): letters, digits,
underscore. -/
def isWordChar (c : Char) : Bool :=
  ('A' ≤ c && c ≤ 'Z') || ('a' ≤ c && c ≤ 'z') || ('0' ≤ c && c ≤ '9') || c = '_'

/-- Character class `[A-Z_]` of the `uppercase_word_pattern` regex. -/
def isUpperTok (c : Char) : Bool :=
  ('A' ≤ c && c ≤ 'Z') || c = '_'

/-- Character class `[A-Za-z0-9.!?\[\]\(\)\*_%]` whose complement the
`unwanted_trailing_parts_pattern` regex strips from line ends. -/
def isAllowedTrailing (c : Char) : Bool :=
  ('A' ≤ c && c ≤ 'Z') || ('a' ≤ c && c ≤ 'z') || ('0' ≤ c && c ≤ '9') ||
  c = '.' || c = '!' || c = '?' || c = '[' || c = ']' || c = '(' || c = ')' ||
  c = '*' || c = '_' || c = '%'

/-- Does `pat` occur at the head of `l`? -/
def listStartsWith : List Char → List Char → Bool
  | [], _ => true
  | _ :: _, [] => false
  | a :: as, b :: bs => a = b && listStartsWith as bs

/-- Does `pat` occur as a contiguous substring of `l`? -/
def listContains (pat : List Char) : List Char → Bool
  | [] => listStartsWith pat []
  | c :: rest => listStartsWith pat (c :: rest) || listContains pat rest

/-- Python `str.rstrip` on the character list. -/
def rstripList (l : List Char) : List Char :=
  ((l.reverse.dropWhile isPySpace)).reverse

/-- Action of `unwanted_trailing_parts_pattern.sub("", line)`: drop the
maximal trailing run of characters outside the allowed set. -/
def dropUnwantedTrailing (l : List Char) : List Char :=
  ((l.reverse.dropWhile (fun c => !isAllowedTrailing c))).reverse

/-- Python `str.splitlines` (with `'\n'` as the boundary): the final line
has no terminator and a trailing `'\n'` does not produce an extra empty
line. -/
def splitlinesList : List Char → List (List Char)
  | [] => []
  | c :: cs =>
    match splitlinesList cs with
    | [] => if c = '\n' then [[]] else [[c]]
    | h :: t => if c = '\n' then [] :: h :: t else (c :: h) :: t

/-- Python `str.splitlines(keepends=True)` (with `'\n'` boundary). -/
def splitKeepEnds : List Char → List (List Char)
  | [] => []
  | c :: cs =>
    match splitKeepEnds cs with
    | [] => [[c]]
    | h :: t => if c = '\n' then [c] :: h :: t else (c :: h) :: t

/-- Join lines with a single `'\n'` separator (`"\n".join(...)`). -/
def joinLines : List (List Char) → List Char
  | [] => []
  | [x] => x
  | x :: y :: rest => x ++ '\n' :: joinLines (y :: rest)

/-- Python `sep.join(strings)`. -/
def pyJoin (sep : String) : List String → String
  | [] => ""
  | [x] => x
  | x :: y :: rest => x ++ sep ++ pyJoin sep (y :: rest)

/-- Fuel-driven core of Python `str.replace` (left-to-right,
non-overlapping). -/
def replaceListAux (pat rep : List Char) : Nat → List Char → List Char
  | 0, l => l
  | _ + 1, [] => []
  | fuel + 1, c :: cs =>
    if listStartsWith pat (c :: cs) then
      rep ++ replaceListAux pat rep fuel ((c :: cs).drop pat.length)
    else
      c :: replaceListAux pat rep fuel cs

/-- Python `str.replace` on character lists (for nonempty patterns the
fuel `l.length` is never exhausted). -/
def replaceList (pat rep l : List Char) : List Char :=
  if pat.isEmpty then l else replaceListAux pat rep l.length l

/-- Python `s.replace(pat, rep)`. -/
def pyReplace (s pat rep : String) : String :=
  ⟨replaceList pat.data rep.data s.data⟩

/-- Python `str.upper` (ASCII). -/
def pyUpper (s : String) : String := ⟨s.data.map Char.toUpper⟩

/-- Python `str.lower` (ASCII). -/
def pyLower (s : String) : String := ⟨s.data.map Char.toLower⟩

/-- A value stored in an entry attribute or in the field map: the source
manipulates strings, ints (years) and lists of strings (highlights,
authors). -/
inductive Value where
  | str (s : String)
  | int (n : Int)
  | list (l : List String)
deriving DecidableEq, Repr

/-- Python truthiness of a `Value`. -/
def Value.truthy : Value → Bool
  | .str s => s ≠ ""
  | .int n => n ≠ 0
  | .list l => l ≠ []

/-- Truthiness of an optional value (`None` is falsy). -/
def optTruthy : Option Value → Bool
  | none => false
  | some v => v.truthy

/-- String content of a value.  Only `.str` values reach the positions
where this is used on schema-valid data; the other cases are a total
default for the embedding. -/
def Value.asStr : Value → String
  | .str s => s
  | .int n => toString n
  | .list l => pyJoin ", " l

/-- List-of-strings content of a value (schema-valid highlights/authors
are always `.list`). -/
def Value.asStrList : Value → List String
  | .str s => [s]
  | .int n => [toString n]
  | .list l => l

/-- Lookup in an insertion-ordered string-keyed dictionary. -/
def dictGet? {α : Type} (m : List (String × α)) (k : String) : Option α :=
  match m with
  | [] => none
  | kv :: rest => if kv.1 = k then some kv.2 else dictGet? rest k

/-- Python `key in dict`. -/
def hasKey {α : Type} (m : List (String × α)) (k : String) : Bool :=
  (dictGet? m k).isSome

/-- Python `dict[k] = v`: replace in place, or append a new key. -/
def dictSet {α : Type} (k : String) (v : α) : List (String × α) → List (String × α)
  | [] => [(k, v)]
  | kv :: rest => if kv.1 = k then (kv.1, v) :: rest else kv :: dictSet k v rest

/-- Sequential `dict[k] = v` for each pair of `xs` (Python `a | b` is
`setAll a b`). -/
def setAll {α : Type} (m : List (String × α)) : List (String × α) → List (String × α)
  | [] => m
  | kv :: rest => setAll (dictSet kv.1 kv.2 m) rest

/-- Emit the accumulated word run (reversed in `cur`) as a token when it
is nonempty and consists of `[A-Z_]` only. -/
def emitTok (cur : List Char) (rest : List (List Char)) : List (List Char) :=
  (if cur ≠ [] ∧ cur.all isUpperTok then [cur.reverse] else []) ++ rest

/-- Scanner for `re.findall(r"\b[A-Z_]+\b", s)`: `cur` holds the current
maximal word-character run, reversed. -/
def tokensGo (cur : List Char) : List Char → List (List Char)
  | [] => emitTok cur []
  | c :: cs => if isWordChar c then tokensGo (c :: cur) cs else emitTok cur (tokensGo [] cs)

/-- All matches of `uppercase_word_pattern` in a string: the maximal
word-character runs made of uppercase letters/underscore only. -/
def upperTokens (l : List Char) : List (List Char) :=
  tokensGo [] l

/-- Emit the accumulated non-whitespace run (reversed in `cur`), dropping
it when it contains one of the not-provided tokens as a substring (the
action of one `\S*(?:...)\S*` match). -/
def emitRun (np : List (List Char)) (cur : List Char) (rest : List Char) : List Char :=
  (if np.any (fun t => listContains t cur.reverse) then [] else cur.reverse) ++ rest

/-- Scanner for `not_provided_placeholders_pattern.sub("", s)`: removes
every maximal non-whitespace run containing a not-provided token. -/
def removeNpGo (np : List (List Char)) (cur : List Char) : List Char → List Char
  | [] => emitRun np cur []
  | c :: cs =>
    if isPySpace c then emitRun np cur (c :: removeNpGo np [] cs)
    else removeNpGo np (c :: cur) cs

/-- Action of `not_provided_placeholders_pattern.sub("", s)` on a string. -/
def removeNp (np : List (List Char)) (l : List Char) : List Char :=
  removeNpGo np [] l

/-- One line of `clean_trailing_parts`: right-strip, drop the line if it
is empty, otherwise strip the unwanted trailing run and right-strip
again. -/
def cleanLine (line : List Char) : Option (List Char) :=
  let new_line := rstripList line
  if new_line = [] then none
  else some (rstripList (dropUnwantedTrailing new_line))

/-- Source `clean_trailing_parts`: per line, right-strip, drop empty
lines, strip unwanted trailing characters, re-join with newline. -/
def clean_trailing_parts (text : String) : String :=
  ⟨joinLines ((splitlinesList text.data).filterMap cleanLine)⟩

/-- Source `remove_not_provided_placeholders`: collect the uppercase
placeholders used across all template values, subtract the available
field keys, and if any remain, delete every non-whitespace run
containing one of them from every template, cleaning trailing parts. -/
def remove_not_provided_placeholders (entry_templates : List (String × String))
    (entry_fields : List (String × Value)) : List (String × String) :=
  let used_placeholders := upperTokens (pyJoin " " (entry_templates.map Prod.snd)).data
  let not_provided := used_placeholders.filter
    (fun t => !(entry_fields.any (fun kv => kv.1.data = t)))
  if not_provided.isEmpty then entry_templates
  else entry_templates.map
    (fun kv => (kv.1, clean_trailing_parts ⟨removeNp not_provided kv.2.data⟩))

/-- Modelled from the spec: the external placeholder substitutor
(`string_processor.substitute_placeholders`, not part of the source
file) replaces every occurrence of every known placeholder token in the
template with its mapped value; tokens with no mapping are left as
literal text. -/
def substitute_placeholders (template : String) (entry_fields : List (String × Value)) :
    String :=
  match entry_fields with
  | [] => template
  | kv :: rest => substitute_placeholders (pyReplace template kv.1 kv.2.asStr) rest

/-- Source `process_highlights`: each highlight becomes a bullet, with
`" - "` separators turned into two-space-indented sub-bullets. -/
def process_highlights (highlights : List String) : String :=
  pyJoin "\n" (highlights.map (fun h => "- " ++ pyReplace h " - " "\n  - "))

/-- Source `process_authors`: comma-separated join. -/
def process_authors (authors : List String) : String :=
  pyJoin ", " authors

/-- Python `textwrap.indent(text, prefix)` with the default predicate:
prefix every line that contains a non-whitespace character; lines
consisting solely of whitespace are left unchanged. -/
def textwrapIndent (text : String) (pre : String) : String :=
  ⟨(splitKeepEnds text.data).map
    (fun line => if line.any (fun c => !isPySpace c) then pre.data ++ line else line)
    |>.flatten⟩

/-- Source `process_summary`: fixed admonition header plus the summary
indented by four spaces via `textwrap.indent`. -/
def process_summary (summary : String) : String :=
  "!!! summary\n" ++ textwrapIndent summary "    "

/-- External formatting collaborators of the source file
(`date.format_single_date`, `date.format_date_range`,
`date.compute_time_span_string`, `string_processor.clean_url`), opaque
to this engine.  The locale and the reference current date are folded
into the functions, which otherwise take the same data the source
passes: the raw date values and the template strings. -/
structure Externals where
  format_single_date : Value → String → String
  format_date_range : Value → Value → String → String → String
  compute_time_span_string : Value → Value → String → String
  clean_url : String → String

/-- Source `process_date`: route to the single-date formatter, the
date-range formatter (optionally joined with a time span by a blank
line), or fail. -/
def process_date (ext : Externals) (date start_date end_date : Option Value)
    (show_time_span : Bool)
    (single_date_template date_range_template time_span_template : String) :
    Except String String :=
  if optTruthy date && !(optTruthy start_date || optTruthy end_date) then
    .ok (ext.format_single_date ((date.getD (.str ""))) single_date_template)
  else if optTruthy start_date && optTruthy end_date then
    let date_range := ext.format_date_range (start_date.getD (.str ""))
      (end_date.getD (.str "")) single_date_template date_range_template
    if show_time_span then
      let time_span := ext.compute_time_span_string (start_date.getD (.str ""))
        (end_date.getD (.str "")) time_span_template
      .ok (date_range ++ "\n\n" ++ time_span)
    else
      .ok date_range
  else
    .error "Date is not provided for this entry."

/-- A structured (non-text) entry: its snake-case type tag, whether it is
a `PublicationEntry`, and its present (non-`None`) attributes as an
insertion-ordered map.  `model_dump(exclude_none=True)` returns exactly
`attrs`; `getattr(entry, k, None)` is lookup in `attrs`. -/
structure StructEntry where
  entry_type_in_snake_case : String
  is_publication : Bool
  attrs : List (String × Value)
deriving DecidableEq, Repr

/-- Python `getattr(entry, name, None)`. -/
def StructEntry.getattr? (e : StructEntry) (name : String) : Option Value :=
  dictGet? e.attrs name

/-- Modelled from the spec: the `doi_url` attribute of the publication
schema (not part of the source file) is the canonical DOI URL
`"https://doi.org/" + doi`. -/
def StructEntry.doi_url (e : StructEntry) : String :=
  "https://doi.org/" ++ ((e.getattr? "doi").getD (.str "")).asStr

/-- Source `process_doi`: only a publication with a truthy DOI succeeds,
returning `f"{entry.doi_url}"`. -/
def process_doi (e : StructEntry) : Except String String :=
  if e.is_publication && optTruthy (e.getattr? "doi") then
    .ok e.doi_url
  else
    .error "DOI is not provided for this entry."

/-- Source `process_url`: a publication with a DOI delegates to
`process_doi`; otherwise a truthy `url` attribute becomes a markdown
link with cleaned display text; otherwise fail. -/
def process_url (ext : Externals) (e : StructEntry) : Except String String :=
  if e.is_publication && optTruthy (e.getattr? "doi") then
    process_doi e
  else if optTruthy (e.getattr? "url") then
    let url := ((e.getattr? "url").getD (.str "")).asStr
    .ok ("[" ++ ext.clean_url url ++ "](" ++ url ++ ")")
  else
    .error "URL is not provided for this entry."

/-- The template configuration: per-entry-type template slot mappings
(the result of `getattr(templates, tag).model_dump(exclude_none=True)`
for each tag that has templates) plus the three shared date templates. -/
structure Templates where
  entry_templates : List (String × List (String × String))
  single_date : String
  date_range : String
  time_span : String

/-- An entry: a plain text entry (an opaque string) or a structured
entry. -/
inductive Entry where
  | text (s : String)
  | structured (e : StructEntry)
deriving DecidableEq, Repr

/-- Lines 55-59 of the source: special-case HIGHLIGHTS. -/
def step_highlights (e : StructEntry) (fs : List (String × Value)) :
    Except String (List (String × Value)) :=
  if hasKey fs "HIGHLIGHTS" then
    match e.getattr? "highlights" with
    | none => .error "HIGHLIGHTS in fields but highlights is None"
    | some v => .ok (dictSet "HIGHLIGHTS" (.str (process_highlights v.asStrList)) fs)
  else .ok fs

/-- Lines 61-65 of the source: special-case AUTHORS. -/
def step_authors (e : StructEntry) (fs : List (String × Value)) :
    Except String (List (String × Value)) :=
  if hasKey fs "AUTHORS" then
    match e.getattr? "authors" with
    | none => .error "AUTHORS in fields but authors is None"
    | some v => .ok (dictSet "AUTHORS" (.str (process_authors v.asStrList)) fs)
  else .ok fs

/-- Lines 67-82 of the source: special-case DATE, computed whenever any
of DATE, START_DATE, END_DATE is a field key. -/
def step_date (ext : Externals) (tpl : Templates) (show_time_span : Bool)
    (e : StructEntry) (fs : List (String × Value)) :
    Except String (List (String × Value)) :=
  if hasKey fs "DATE" || hasKey fs "START_DATE" || hasKey fs "END_DATE" then
    match process_date ext (e.getattr? "date") (e.getattr? "start_date")
        (e.getattr? "end_date") show_time_span tpl.single_date tpl.date_range
        tpl.time_span with
    | .error m => .error m
    | .ok s => .ok (dictSet "DATE" (.str s) fs)
  else .ok fs

/-- Lines 84-92 of the source: special-case START_DATE. -/
def step_start_date (ext : Externals) (tpl : Templates) (e : StructEntry)
    (fs : List (String × Value)) : Except String (List (String × Value)) :=
  if hasKey fs "START_DATE" then
    match e.getattr? "start_date" with
    | none => .error "START_DATE in fields but start_date is None"
    | some v => .ok (dictSet "START_DATE" (.str (ext.format_single_date v tpl.single_date)) fs)
  else .ok fs

/-- Lines 94-102 of the source: special-case END_DATE. -/
def step_end_date (ext : Externals) (tpl : Templates) (e : StructEntry)
    (fs : List (String × Value)) : Except String (List (String × Value)) :=
  if hasKey fs "END_DATE" then
    match e.getattr? "end_date" with
    | none => .error "END_DATE in fields but end_date is None"
    | some v => .ok (dictSet "END_DATE" (.str (ext.format_single_date v tpl.single_date)) fs)
  else .ok fs

/-- Lines 104-105 of the source: special-case URL. -/
def step_url (ext : Externals) (e : StructEntry) (fs : List (String × Value)) :
    Except String (List (String × Value)) :=
  if hasKey fs "URL" then
    match process_url ext e with
    | .error m => .error m
    | .ok s => .ok (dictSet "URL" (.str s) fs)
  else .ok fs

/-- Lines 107-109 of the source: special-case DOI, which also overwrites
URL. -/
def step_doi (ext : Externals) (e : StructEntry) (fs : List (String × Value)) :
    Except String (List (String × Value)) :=
  if hasKey fs "DOI" then
    match process_url ext e with
    | .error m => .error m
    | .ok u =>
      match process_doi e with
      | .error m => .error m
      | .ok d => .ok (dictSet "DOI" (.str d) (dictSet "URL" (.str u) fs))
  else .ok fs

/-- Lines 111-112 of the source: special-case SUMMARY (computed from the
field-map value). -/
def step_summary (fs : List (String × Value)) :
    Except String (List (String × Value)) :=
  if hasKey fs "SUMMARY" then
    .ok (dictSet "SUMMARY"
      (.str (process_summary ((dictGet? fs "SUMMARY").getD (.str "")).asStr)) fs)
  else .ok fs

/-- Lines 50-52 of the source: the initial field map, built from the
entry's present attributes with keys uppercased. -/
def initialFields (e : StructEntry) : List (String × Value) :=
  e.attrs.map (fun kv => (pyUpper kv.1, kv.2))

/-- Lines 50-112 of the source: build the final field map, processing
the special fields in order. -/
def build_entry_fields (ext : Externals) (tpl : Templates) (show_time_span : Bool)
    (e : StructEntry) : Except String (List (String × Value)) := do
  let fs1 ← step_highlights e (initialFields e)
  let fs2 ← step_authors e fs1
  let fs3 ← step_date ext tpl show_time_span e fs2
  let fs4 ← step_start_date ext tpl e fs3
  let fs5 ← step_end_date ext tpl e fs4
  let fs6 ← step_url ext e fs5
  let fs7 ← step_doi ext e fs6
  step_summary fs7

/-- Lines 116-121 of the source: for each pair of the merged mapping, in
order, `setattr(entry, template_name, substitute_placeholders(template,
entry_fields))`. -/
def renderLoop (entry_fields : List (String × Value)) (attrs : List (String × Value)) :
    List (String × Value) → List (String × Value)
  | [] => attrs
  | (k, v) :: rest =>
    renderLoop entry_fields
      (dictSet k (.str (substitute_placeholders v.asStr entry_fields)) attrs) rest

/-- The union `entry_templates | entry_fields` iterated by the final loop
of the source (template slot values tagged as strings). -/
def mergedTemplates (entry_templates : List (String × String))
    (entry_fields : List (String × Value)) : List (String × Value) :=
  setAll (entry_templates.map (fun kv => (kv.1, Value.str kv.2))) entry_fields

/-- Source `render_entry_templates`: text entries and entries without
configured templates pass through; otherwise build the field map, elide
not-provided placeholders and write every rendered string back onto the
entry. -/
def render_entry_templates (ext : Externals) (tpl : Templates) (show_time_span : Bool)
    (entry : Entry) : Except String Entry :=
  match entry with
  | .text s => .ok (.text s)
  | .structured e =>
    match dictGet? tpl.entry_templates e.entry_type_in_snake_case with
    | none => .ok (.structured e)
    | some entry_templates => do
      let entry_fields ← build_entry_fields ext tpl show_time_span e
      let elided := remove_not_provided_placeholders entry_templates entry_fields
      let assignments := mergedTemplates elided entry_fields
      .ok (.structured ⟨e.entry_type_in_snake_case, e.is_publication,
        renderLoop entry_fields e.attrs assignments⟩)

/-- Modelled from the spec (claim wording for `process_summary`): indent
the continuation of the text after each line start. -/
def specIndentAllGo (pre : List Char) : List Char → List Char
  | [] => []
  | c :: rest =>
    if c = '\n' then
      c :: (match rest with
        | [] => []
        | _ :: _ => pre ++ specIndentAllGo pre rest)
    else c :: specIndentAllGo pre rest

/-- Modelled from the spec (claim wording for `process_summary`): the
original text with every line indented by the prefix. -/
def specIndentAll (pre : List Char) : List Char → List Char
  | [] => []
  | c :: rest => pre ++ specIndentAllGo pre (c :: rest)

/-- Modelled from the spec (claim wording): `process_summary` as the
claim states it, with every line of the text indented by four spaces. -/
def process_summary_spec (summary : String) : String :=
  "!!! summary\n" ++ ⟨specIndentAll "    ".data summary.data⟩

/-- Emit one accumulated line, indenting it when it contains a
non-whitespace character (spec-side formulation of the amended claim). -/
def emitLineC (pre acc : List Char) : List Char :=
  if acc.any (fun c => !isPySpace c) then pre ++ acc else acc

/-- Spec-side single-pass formulation of the amended summary claim:
walk the text accumulating the current line (terminator included) and
indent exactly the lines that contain a non-whitespace character. -/
def specIndentContent (pre : List Char) (acc : List Char) : List Char → List Char
  | [] => emitLineC pre acc
  | c :: cs =>
    if c = '\n' then emitLineC pre (acc ++ [c]) ++ specIndentContent pre [] cs
    else specIndentContent pre (acc ++ [c]) cs

/-- Modelled from the spec (claim wording for the final loop): assign
each rendered string to the attribute named by the lower-cased key. -/
def renderLoopLowered (entry_fields : List (String × Value))
    (attrs : List (String × Value)) : List (String × Value) → List (String × Value)
  | [] => attrs
  | (k, v) :: rest =>
    renderLoopLowered entry_fields
      (dictSet (pyLower k) (.str (substitute_placeholders v.asStr entry_fields)) attrs) rest

/-- Modelled from the spec (claim wording): `render_entry_templates` as
claim C3 states it, writing every rendered string to the lower-cased
attribute name. -/
def render_entry_templates_lowered (ext : Externals) (tpl : Templates)
    (show_time_span : Bool) (entry : Entry) : Except String Entry :=
  match entry with
  | .text s => .ok (.text s)
  | .structured e =>
    match dictGet? tpl.entry_templates e.entry_type_in_snake_case with
    | none => .ok (.structured e)
    | some entry_templates => do
      let entry_fields ← build_entry_fields ext tpl show_time_span e
      let elided := remove_not_provided_placeholders entry_templates entry_fields
      let assignments := mergedTemplates elided entry_fields
      .ok (.structured ⟨e.entry_type_in_snake_case, e.is_publication,
        renderLoopLowered entry_fields e.attrs assignments⟩)

/-! ### Character class facts -/

theorem isWordChar_of_isUpperTok {c : Char} (h : isUpperTok c = true) :
    isWordChar c = true := by
  simp only [isUpperTok, Bool.or_eq_true, Bool.and_eq_true, decide_eq_true_eq] at h
  simp only [isWordChar, Bool.or_eq_true, Bool.and_eq_true, decide_eq_true_eq]
  tauto

theorem isAllowedTrailing_of_isWordChar {c : Char} (h : isWordChar c = true) :
    isAllowedTrailing c = true := by
  simp only [isWordChar, Bool.or_eq_true, Bool.and_eq_true, decide_eq_true_eq] at h
  simp only [isAllowedTrailing, Bool.or_eq_true, Bool.and_eq_true, decide_eq_true_eq]
  tauto

theorem not_isWordChar_of_isPySpace {c : Char} (h : isPySpace c = true) :
    isWordChar c = false := by
  simp only [isPySpace, Bool.or_eq_true, decide_eq_true_eq] at h
  rcases h with ((((e | e) | e) | e) | e) | e <;> subst e <;> decide

theorem not_isWordChar_of_not_isAllowedTrailing {c : Char}
    (h : isAllowedTrailing c = false) : isWordChar c = false := by
  cases hw : isWordChar c
  · rfl
  · exact absurd (isAllowedTrailing_of_isWordChar hw) (by simp [h])

theorem not_isPySpace_of_isAllowedTrailing {c : Char}
    (h : isAllowedTrailing c = true) : isPySpace c = false := by
  cases hs : isPySpace c
  · rfl
  · exfalso
    simp only [isPySpace, Bool.or_eq_true, decide_eq_true_eq] at hs
    rcases hs with ((((e | e) | e) | e) | e) | e <;> subst e <;> exact absurd h (by decide)

/-! ### Substring machinery -/

theorem listStartsWith_refl : ∀ t : List Char, listStartsWith t t = true
  | [] => rfl
  | a :: as => by simp [listStartsWith, listStartsWith_refl as]

theorem listStartsWith_append {t x : List Char} (y : List Char)
    (h : listStartsWith t x = true) : listStartsWith t (x ++ y) = true := by
  induction t generalizing x with
  | nil => rfl
  | cons a as ih =>
    cases x with
    | nil => simp [listStartsWith] at h
    | cons b bs =>
      simp only [listStartsWith, Bool.and_eq_true, decide_eq_true_eq] at h
      simp only [List.cons_append, listStartsWith, Bool.and_eq_true, decide_eq_true_eq]
      exact ⟨h.1, ih h.2⟩

theorem listContains_of_startsWith {t l : List Char}
    (h : listStartsWith t l = true) : listContains t l = true := by
  cases l with
  | nil => simpa [listContains] using h
  | cons c cs => simp [listContains, h]

theorem listContains_self (t : List Char) : listContains t t = true :=
  listContains_of_startsWith (listStartsWith_refl t)

theorem listContains_appendL {t a : List Char} (b : List Char)
    (h : listContains t a = true) : listContains t (a ++ b) = true := by
  induction a with
  | nil =>
    cases t with
    | nil => exact listContains_of_startsWith rfl
    | cons u us => simp [listContains, listStartsWith] at h
  | cons c cs ih =>
    simp only [listContains, Bool.or_eq_true] at h
    rcases h with h | h
    · exact listContains_of_startsWith (listStartsWith_append b h)
    · simp only [List.cons_append, listContains, Bool.or_eq_true]
      exact Or.inr (ih h)

theorem listContains_appendR {t b : List Char} (a : List Char)
    (h : listContains t b = true) : listContains t (a ++ b) = true := by
  induction a with
  | nil => exact h
  | cons c cs ih =>
    simp only [List.cons_append, listContains, Bool.or_eq_true]
    exact Or.inr ih

/-! ### Right-strip machinery -/

theorem dropWhile_shape (p : Char → Bool) :
    ∀ l : List Char, l.dropWhile p = [] ∨
      ∃ c cs, l.dropWhile p = c :: cs ∧ p c = false
  | [] => Or.inl rfl
  | c :: cs => by
    cases hp : p c
    · exact Or.inr ⟨c, cs, by simp [List.dropWhile_cons, hp], hp⟩
    · simpa [List.dropWhile_cons, hp] using dropWhile_shape p cs

theorem dropWhile_of_head_neg (p : Char → Bool) (c : Char) (cs : List Char)
    (h : p c = false) : (c :: cs).dropWhile p = c :: cs := by
  simp [List.dropWhile_cons, h]

/-- Decomposition of a right strip: the input is the result followed by a
suffix of stripped characters. -/
theorem dropRightWhile_decomp (p : Char → Bool) (l : List Char) :
    ∃ w, l = ((l.reverse.dropWhile p)).reverse ++ w ∧ ∀ c ∈ w, p c = true := by
  refine ⟨((l.reverse.takeWhile p)).reverse, ?_, ?_⟩
  · rw [← List.reverse_append, List.takeWhile_append_dropWhile, List.reverse_reverse]
  · intro c hc
    exact List.mem_takeWhile_imp (List.mem_reverse.mp hc)

/-- A right strip leaves the empty list or a result whose last character
fails the predicate. -/
theorem dropRightWhile_shape (p : Char → Bool) (l : List Char) :
    ((l.reverse.dropWhile p)).reverse = [] ∨
      ∃ r c, ((l.reverse.dropWhile p)).reverse = r ++ [c] ∧ p c = false := by
  rcases dropWhile_shape p l.reverse with h | ⟨c, cs, h, hc⟩
  · exact Or.inl (by simp [h])
  · exact Or.inr ⟨cs.reverse, c, by simp [h], hc⟩

/-- A list whose last character fails the predicate is unchanged by the
right strip. -/
theorem dropRightWhile_of_last_neg (p : Char → Bool) (r : List Char) (c : Char)
    (h : p c = false) : (((r ++ [c]).reverse.dropWhile p)).reverse = r ++ [c] := by
  rw [List.reverse_append]
  simp only [List.reverse_cons, List.reverse_nil, List.nil_append, List.singleton_append]
  rw [dropWhile_of_head_neg p c r.reverse h]
  simp

/-! ### Token scanner lemmas -/

theorem emitTok_append (cur : List Char) (rest : List (List Char)) :
    emitTok cur rest = emitTok cur [] ++ rest := by
  simp [emitTok]

theorem emitTok_nil (rest : List (List Char)) : emitTok [] rest = rest := by
  simp [emitTok]

/-- Scanning across a non-word character splits the token list. -/
theorem tokensGo_append_nonword {c : Char} (hc : isWordChar c = false) :
    ∀ (a b cur : List Char),
      tokensGo cur (a ++ c :: b) = tokensGo cur a ++ tokensGo [] b := by
  intro a
  induction a with
  | nil =>
    intro b cur
    simp only [List.nil_append, tokensGo, hc, Bool.false_eq_true, if_false]
    rw [emitTok_append]
  | cons d a' ih =>
    intro b cur
    by_cases hd : isWordChar d
    · simp only [List.cons_append, tokensGo, hd, if_true, List.append_eq]
      exact ih b (d :: cur)
    · simp only [List.cons_append, tokensGo, hd, Bool.false_eq_true, if_false,
        List.append_eq]
      rw [ih b [], emitTok_append, emitTok_append cur (tokensGo [] a'),
        List.append_assoc]

theorem tokensGo_nonword_all {w : List Char} (hw : ∀ c ∈ w, isWordChar c = false) :
    tokensGo [] w = [] := by
  induction w with
  | nil => rfl
  | cons c cs ih =>
    have hc : isWordChar c = false := hw c (by simp)
    simp only [tokensGo, hc, Bool.false_eq_true, if_false, emitTok_nil]
    exact ih (fun d hd => hw d (by simp [hd]))

/-- Appending a purely non-word suffix does not change the tokens. -/
theorem upperTokens_append_nonword {w : List Char}
    (hw : ∀ c ∈ w, isWordChar c = false) (l : List Char) :
    upperTokens (l ++ w) = upperTokens l := by
  cases w with
  | nil => simp
  | cons c w' =>
    have hc : isWordChar c = false := hw c (by simp)
    have h2 : tokensGo [] w' = [] :=
      tokensGo_nonword_all (fun d hd => hw d (List.mem_cons_of_mem c hd))
    unfold upperTokens
    rw [tokensGo_append_nonword hc l w' [], h2, List.append_nil]

theorem upperTokens_cons_nonword {c : Char} (hc : isWordChar c = false)
    (l : List Char) : upperTokens (c :: l) = upperTokens l := by
  unfold upperTokens
  simp only [tokensGo, hc, Bool.false_eq_true, if_false, emitTok_nil]

/-- Tokens split across a non-word separator. -/
theorem upperTokens_append_sep {c : Char} (hc : isWordChar c = false)
    (a b : List Char) : upperTokens (a ++ c :: b) = upperTokens a ++ upperTokens b :=
  tokensGo_append_nonword hc a b []

/-- Every token is a contiguous substring of the scanned text. -/
theorem listContains_of_mem_tokensGo :
    ∀ (l cur : List Char) (t : List Char), t ∈ tokensGo cur l →
      listContains t (cur.reverse ++ l) = true := by
  intro l
  induction l with
  | nil =>
    intro cur t ht
    simp only [tokensGo, emitTok, List.append_nil] at ht ⊢
    split at ht
    · simp only [List.singleton_append, List.mem_cons, List.not_mem_nil, or_false] at ht
      subst ht
      exact listContains_self _
    · simp at ht
  | cons c cs ih =>
    intro cur t ht
    by_cases hc : isWordChar c
    · simp only [tokensGo, hc, if_true] at ht
      have := ih (c :: cur) t ht
      simpa [List.append_assoc] using this
    · simp only [tokensGo, hc, Bool.false_eq_true, if_false, emitTok] at ht
      rw [List.mem_append] at ht
      rcases ht with ht | ht
      · split at ht
        · simp only [List.mem_cons, List.not_mem_nil, or_false] at ht
          subst ht
          exact listContains_appendL _ (listContains_self _)
        · simp at ht
      · have := ih [] t ht
        simp only [List.reverse_nil, List.nil_append] at this
        refine listContains_appendR cur.reverse ?_
        simp only [listContains, Bool.or_eq_true]
        exact Or.inr this

theorem listContains_of_mem_upperTokens {t l : List Char}
    (ht : t ∈ upperTokens l) : listContains t l = true := by
  have := listContains_of_mem_tokensGo l [] t ht
  simpa using this

/-- Tokens of a newline join are the tokens of the parts. -/
theorem upperTokens_joinLines (ls : List (List Char)) :
    upperTokens (joinLines ls) = (ls.map upperTokens).flatten := by
  match ls with
  | [] => rfl
  | [x] => simp [joinLines]
  | x :: y :: rest =>
    have hn : isWordChar '\n' = false := by decide
    calc upperTokens (x ++ '\n' :: joinLines (y :: rest))
        = upperTokens x ++ upperTokens (joinLines (y :: rest)) :=
          upperTokens_append_sep hn _ _
      _ = upperTokens x ++ ((y :: rest).map upperTokens).flatten := by
          rw [upperTokens_joinLines (y :: rest)]
      _ = ((x :: y :: rest).map upperTokens).flatten := by simp

/-! ### Line splitting and joining lemmas -/

theorem splitlinesList_eq_nil_iff (l : List Char) :
    splitlinesList l = [] ↔ l = [] := by
  constructor
  · intro h
    cases l with
    | nil => rfl
    | cons c cs =>
      exfalso
      simp only [splitlinesList] at h
      cases hcs : splitlinesList cs with
      | nil => rw [hcs] at h; by_cases hc : c = '\n' <;> simp [hc] at h
      | cons a t => rw [hcs] at h; by_cases hc : c = '\n' <;> simp [hc] at h
  · intro h
    subst h
    rfl

theorem splitlinesList_cons_newline (cs : List Char) :
    splitlinesList ('\n' :: cs) =
      match splitlinesList cs with
      | [] => [[]]
      | h :: t => [] :: h :: t := by
  cases hcs : splitlinesList cs <;> simp [splitlinesList, hcs]

theorem splitlinesList_cons_other {c : Char} (hc : c ≠ '\n') (cs : List Char) :
    splitlinesList (c :: cs) =
      match splitlinesList cs with
      | [] => [[c]]
      | h :: t => (c :: h) :: t := by
  cases hcs : splitlinesList cs <;> simp [splitlinesList, hcs, hc]

theorem joinLines_cons_cons (c : Char) (h : List Char) (t : List (List Char)) :
    joinLines ((c :: h) :: t) = c :: joinLines (h :: t) := by
  cases t with
  | nil => rfl
  | cons y t' => simp [joinLines]

/-- Splitting into lines and re-joining recovers the text, up to one
trailing newline. -/
theorem joinLines_splitlinesList (l : List Char) :
    l = joinLines (splitlinesList l) ∨
      l = joinLines (splitlinesList l) ++ ['\n'] := by
  induction l with
  | nil => exact Or.inl rfl
  | cons c cs ih =>
    by_cases hc : c = '\n'
    · subst hc
      rw [splitlinesList_cons_newline]
      cases hcs : splitlinesList cs with
      | nil =>
        have : cs = [] := (splitlinesList_eq_nil_iff cs).mp hcs
        subst this
        exact Or.inr (by simp [joinLines])
      | cons h t =>
        rw [hcs] at ih
        have hj : joinLines ([] :: h :: t) = '\n' :: joinLines (h :: t) := by
          simp [joinLines]
        rw [hj]
        rcases ih with ih | ih
        · exact Or.inl (by rw [← ih])
        · exact Or.inr (by rw [ih, List.cons_append])
    · rw [splitlinesList_cons_other hc]
      cases hcs : splitlinesList cs with
      | nil =>
        have : cs = [] := (splitlinesList_eq_nil_iff cs).mp hcs
        subst this
        exact Or.inl rfl
      | cons h t =>
        rw [hcs] at ih
        rw [joinLines_cons_cons]
        rcases ih with ih | ih
        · exact Or.inl (by rw [← ih])
        · exact Or.inr (by rw [ih, List.cons_append])

theorem no_newline_in_splitlines {l : List Char} :
    ∀ r ∈ splitlinesList l, '\n' ∉ r := by
  induction l with
  | nil => simp [splitlinesList]
  | cons c cs ih =>
    intro r hr
    by_cases hc : c = '\n'
    · subst hc
      rw [splitlinesList_cons_newline] at hr
      cases hcs : splitlinesList cs with
      | nil =>
        rw [hcs] at hr
        simp only [List.mem_cons, List.not_mem_nil, or_false] at hr
        subst hr
        simp
      | cons h t =>
        rw [hcs] at hr
        simp only [List.mem_cons] at hr
        rcases hr with hr | hr
        · subst hr; simp
        · exact ih r (by rw [hcs]; exact List.mem_cons.mpr hr)
    · rw [splitlinesList_cons_other hc] at hr
      cases hcs : splitlinesList cs with
      | nil =>
        rw [hcs] at hr
        simp only [List.mem_cons, List.not_mem_nil, or_false] at hr
        subst hr
        simp only [List.mem_cons, List.not_mem_nil, or_false]
        exact fun e => hc e.symm
      | cons h t =>
        rw [hcs] at hr
        simp only [List.mem_cons] at hr
        rcases hr with hr | hr
        · subst hr
          have hh : '\n' ∉ h := ih h (by rw [hcs]; simp)
          simp only [List.mem_cons]
          rintro (e | e)
          · exact hc e.symm
          · exact hh e
        · exact ih r (by rw [hcs]; simp [hr])

/-- The tokens of a text are the tokens of its lines. -/
theorem upperTokens_splitlines (l : List Char) :
    upperTokens l = ((splitlinesList l).map upperTokens).flatten := by
  have hn : ∀ c ∈ ['\n'], isWordChar c = false := by
    intro c hc
    simp only [List.mem_cons, List.not_mem_nil, or_false] at hc
    subst hc; decide
  rcases joinLines_splitlinesList l with h | h
  · conv_lhs => rw [h]
    rw [upperTokens_joinLines]
  · conv_lhs => rw [h]
    rw [upperTokens_append_nonword hn, upperTokens_joinLines]

/-! ### Cleanup line lemmas -/

theorem rstripList_decomp (l : List Char) :
    ∃ w, l = rstripList l ++ w ∧ ∀ c ∈ w, isPySpace c = true :=
  dropRightWhile_decomp isPySpace l

theorem dropUnwantedTrailing_decomp (l : List Char) :
    ∃ w, l = dropUnwantedTrailing l ++ w ∧ ∀ c ∈ w, isAllowedTrailing c = false := by
  obtain ⟨w, hw, hp⟩ := dropRightWhile_decomp (fun c => !isAllowedTrailing c) l
  exact ⟨w, hw, fun c hc => by simpa using hp c hc⟩

theorem dropUnwantedTrailing_shape (l : List Char) :
    dropUnwantedTrailing l = [] ∨
      ∃ r c, dropUnwantedTrailing l = r ++ [c] ∧ isAllowedTrailing c = true := by
  rcases dropRightWhile_shape (fun c => !isAllowedTrailing c) l with h | ⟨r, c, h, hc⟩
  · exact Or.inl h
  · exact Or.inr ⟨r, c, h, by simpa using hc⟩

theorem rstripList_of_last {c : Char} (r : List Char) (h : isPySpace c = false) :
    rstripList (r ++ [c]) = r ++ [c] :=
  dropRightWhile_of_last_neg isPySpace r c h

theorem dropUnwantedTrailing_of_last {c : Char} (r : List Char)
    (h : isAllowedTrailing c = true) :
    dropUnwantedTrailing (r ++ [c]) = r ++ [c] :=
  dropRightWhile_of_last_neg (fun c => !isAllowedTrailing c) r c (by simp [h])

theorem cleanLine_decomp {line r : List Char} (h : cleanLine line = some r) :
    ∃ junk, line = r ++ junk ∧ ∀ c ∈ junk, isWordChar c = false := by
  unfold cleanLine at h
  by_cases hnl : rstripList line = []
  · simp [hnl] at h
  · have hr : r = rstripList (dropUnwantedTrailing (rstripList line)) := by
      simpa [hnl] using h.symm
    obtain ⟨w1, hw1, hp1⟩ := rstripList_decomp line
    obtain ⟨w2, hw2, hp2⟩ := dropUnwantedTrailing_decomp (rstripList line)
    obtain ⟨w3, hw3, hp3⟩ := rstripList_decomp (dropUnwantedTrailing (rstripList line))
    refine ⟨w3 ++ w2 ++ w1, ?_, ?_⟩
    · rw [hr]
      calc line = rstripList line ++ w1 := hw1
        _ = (dropUnwantedTrailing (rstripList line) ++ w2) ++ w1 := by rw [← hw2]
        _ = ((rstripList (dropUnwantedTrailing (rstripList line)) ++ w3) ++ w2) ++ w1 := by
              rw [← hw3]
        _ = rstripList (dropUnwantedTrailing (rstripList line)) ++ (w3 ++ w2 ++ w1) := by
              simp [List.append_assoc]
    · intro c hc
      simp only [List.mem_append] at hc
      rcases hc with (hc | hc) | hc
      · exact not_isWordChar_of_isPySpace (hp3 c hc)
      · exact not_isWordChar_of_not_isAllowedTrailing (hp2 c hc)
      · exact not_isWordChar_of_isPySpace (hp1 c hc)

theorem cleanLine_shape {line r : List Char} (h : cleanLine line = some r) :
    r = [] ∨ ∃ r' c, r = r' ++ [c] ∧ isAllowedTrailing c = true := by
  unfold cleanLine at h
  by_cases hnl : rstripList line = []
  · simp [hnl] at h
  · have hr : r = rstripList (dropUnwantedTrailing (rstripList line)) := by
      simpa [hnl] using h.symm
    rcases dropUnwantedTrailing_shape (rstripList line) with hsh | ⟨r', c, hsh, hc⟩
    · left
      rw [hr, hsh]
      rfl
    · right
      refine ⟨r', c, ?_, hc⟩
      rw [hr, hsh, rstripList_of_last r' (not_isPySpace_of_isAllowedTrailing hc)]

theorem cleanLine_stable {r' : List Char} {c : Char} (hc : isAllowedTrailing c = true) :
    cleanLine (r' ++ [c]) = some (r' ++ [c]) := by
  have hns : isPySpace c = false := not_isPySpace_of_isAllowedTrailing hc
  have h1 : rstripList (r' ++ [c]) = r' ++ [c] := rstripList_of_last r' hns
  have hne : r' ++ [c] ≠ [] := by simp
  unfold cleanLine
  rw [h1]
  rw [if_neg hne, dropUnwantedTrailing_of_last r' hc, h1]

theorem cleanLine_stable_of_some {line r : List Char} (h : cleanLine line = some r) :
    r = [] ∨ cleanLine r = some r := by
  rcases cleanLine_shape h with hr | ⟨r', c, hr, hc⟩
  · exact Or.inl hr
  · right
    rw [hr]
    exact cleanLine_stable hc

/-! ### Placeholder removal scanner lemmas -/

theorem removeNpGo_tokens {np : List (List Char)} :
    ∀ (l cur : List Char) (t : List Char), t ∈ upperTokens (removeNpGo np cur l) →
      t ∈ upperTokens (cur.reverse ++ l) ∧ ∀ tp ∈ np, t ≠ tp := by
  intro l
  induction l with
  | nil =>
    intro cur t ht
    simp only [removeNpGo, emitRun, List.append_nil] at ht
    cases hcond : np.any (fun tp => listContains tp cur.reverse) with
    | true => rw [hcond] at ht; simp only [if_true] at ht; exact absurd ht (by simp [upperTokens, tokensGo, emitTok])
    | false =>
      rw [hcond] at ht
      simp only [Bool.false_eq_true, if_false] at ht
      refine ⟨by simpa using ht, ?_⟩
      intro tp htp heq
      subst heq
      have hcont := listContains_of_mem_upperTokens ht
      have : np.any (fun tp => listContains tp cur.reverse) = true :=
        List.any_eq_true.mpr ⟨t, htp, hcont⟩
      rw [this] at hcond
      exact absurd hcond (by simp)
  | cons c cs ih =>
    intro cur t ht
    by_cases hsp : isPySpace c = true
    · have hnw : isWordChar c = false := not_isWordChar_of_isPySpace hsp
      simp only [removeNpGo, hsp, if_true, emitRun] at ht
      cases hcond : np.any (fun tp => listContains tp cur.reverse) with
      | true =>
        rw [hcond] at ht
        simp only [if_true, List.nil_append] at ht
        rw [upperTokens_cons_nonword hnw] at ht
        obtain ⟨hmem, hfree⟩ := ih [] t ht
        simp only [List.reverse_nil, List.nil_append] at hmem
        refine ⟨?_, hfree⟩
        rw [upperTokens_append_sep hnw]
        exact List.mem_append_right _ hmem
      | false =>
        rw [hcond] at ht
        simp only [Bool.false_eq_true, if_false] at ht
        rw [upperTokens_append_sep hnw] at ht
        rw [upperTokens_append_sep hnw]
        rcases List.mem_append.mp ht with hl | hr
        · refine ⟨List.mem_append_left _ hl, ?_⟩
          intro tp htp heq
          subst heq
          have hcont := listContains_of_mem_upperTokens hl
          have : np.any (fun tp => listContains tp cur.reverse) = true :=
            List.any_eq_true.mpr ⟨t, htp, hcont⟩
          rw [this] at hcond
          exact absurd hcond (by simp)
        · obtain ⟨hmem, hfree⟩ := ih [] t hr
          simp only [List.reverse_nil, List.nil_append] at hmem
          exact ⟨List.mem_append_right _ hmem, hfree⟩
    · have hsp' : isPySpace c = false := by simpa using hsp
      simp only [removeNpGo, hsp', Bool.false_eq_true, if_false] at ht
      obtain ⟨hmem, hfree⟩ := ih (c :: cur) t ht
      refine ⟨?_, hfree⟩
      have : (c :: cur).reverse ++ cs = cur.reverse ++ c :: cs := by
        simp [List.append_assoc]
      rwa [this] at hmem

theorem upperTokens_removeNp {np : List (List Char)} {l t : List Char}
    (ht : t ∈ upperTokens (removeNp np l)) :
    t ∈ upperTokens l ∧ ∀ tp ∈ np, t ≠ tp := by
  have := removeNpGo_tokens l [] t ht
  simpa using this

/-- Tokens survive trailing-character cleanup only if they were present
before. -/
theorem upperTokens_clean_trailing_parts {s : String} {t : List Char}
    (ht : t ∈ upperTokens (clean_trailing_parts s).data) :
    t ∈ upperTokens s.data := by
  have hdata : (clean_trailing_parts s).data =
      joinLines ((splitlinesList s.data).filterMap cleanLine) := rfl
  rw [hdata, upperTokens_joinLines] at ht
  rw [List.mem_flatten] at ht
  obtain ⟨ts, hts, htts⟩ := ht
  rw [List.mem_map] at hts
  obtain ⟨r, hr, rfl⟩ := hts
  rw [List.mem_filterMap] at hr
  obtain ⟨line, hline, hcl⟩ := hr
  obtain ⟨junk, hdec, hjunk⟩ := cleanLine_decomp hcl
  have htoks : upperTokens line = upperTokens r := by
    rw [hdec]
    exact upperTokens_append_nonword hjunk r
  have htl : t ∈ upperTokens line := by rw [htoks]; exact htts
  rw [upperTokens_splitlines s.data, List.mem_flatten]
  exact ⟨upperTokens line, List.mem_map.mpr ⟨line, hline, rfl⟩, htl⟩

theorem pyJoin_space_data (x : String) (y : String) (rest : List String) :
    (pyJoin " " (x :: y :: rest)).data = x.data ++ ' ' :: (pyJoin " " (y :: rest)).data := by
  show (x ++ " " ++ pyJoin " " (y :: rest)).data = _
  rw [String.data_append, String.data_append, List.append_assoc]
  rfl

/-- Every token of a template slot value occurs among the used
placeholders collected from the space-join of all slot values. -/
theorem mem_used_of_mem_slot :
    ∀ (ts : List (String × String)) (k v : String), (k, v) ∈ ts →
      ∀ t ∈ upperTokens v.data,
        t ∈ upperTokens (pyJoin " " (ts.map Prod.snd)).data := by
  intro ts
  induction ts with
  | nil => intro k v hkv; exact absurd hkv (by simp)
  | cons kv0 rest ih =>
    intro k v hkv t ht
    cases rest with
    | nil =>
      simp only [List.mem_cons, List.not_mem_nil, or_false] at hkv
      subst hkv
      simpa [pyJoin] using ht
    | cons kv1 rest' =>
      have hsep : isWordChar ' ' = false := by decide
      have hdata := pyJoin_space_data kv0.2 kv1.2 (rest'.map Prod.snd)
      simp only [List.map_cons]
      rw [hdata, upperTokens_append_sep hsep]
      simp only [List.mem_cons] at hkv
      rcases hkv with hkv | hkv
      · have : v = kv0.2 := by rw [← hkv]
        refine List.mem_append_left _ ?_
        rw [← this]
        exact ht
      · refine List.mem_append_right _ ?_
        have := ih k v (List.mem_cons.mpr hkv) t ht
        simpa using this

/-- Claim C1: after placeholder elision, every uppercase token occurring
in any template slot has a key in the field map: no unresolved
placeholder is handed to the substitution pass. -/
theorem claim_C1_elision_complete (entry_templates : List (String × String))
    (entry_fields : List (String × Value)) (k v : String)
    (hkv : (k, v) ∈ remove_not_provided_placeholders entry_templates entry_fields)
    (t : List Char) (ht : t ∈ upperTokens v.data) :
    entry_fields.any (fun kv => kv.1.data = t) = true := by
  by_cases hany : entry_fields.any (fun kv => kv.1.data = t) = true
  · exact hany
  · exfalso
    unfold remove_not_provided_placeholders at hkv
    by_cases hnp : ((upperTokens (pyJoin " " (entry_templates.map Prod.snd)).data).filter
        (fun t => !(entry_fields.any (fun kv => kv.1.data = t)))).isEmpty
    · rw [if_pos hnp] at hkv
      have hused := mem_used_of_mem_slot entry_templates k v hkv t ht
      have hfilter : ((upperTokens (pyJoin " " (entry_templates.map Prod.snd)).data).filter
          (fun t => !(entry_fields.any (fun kv => kv.1.data = t)))) = [] :=
        List.isEmpty_iff.mp hnp
      have hmemf : t ∈ ((upperTokens (pyJoin " " (entry_templates.map Prod.snd)).data).filter
          (fun t => !(entry_fields.any (fun kv => kv.1.data = t)))) :=
        List.mem_filter.mpr ⟨hused, by simp [hany]⟩
      rw [hfilter] at hmemf
      exact absurd hmemf (by simp)
    · rw [if_neg hnp] at hkv
      rw [List.mem_map] at hkv
      obtain ⟨⟨k0, v0⟩, hmem, heq⟩ := hkv
      have hv : v = clean_trailing_parts
          ⟨removeNp ((upperTokens (pyJoin " " (entry_templates.map Prod.snd)).data).filter
            (fun t => !(entry_fields.any (fun kv => kv.1.data = t)))) v0.data⟩ := by
        have := congrArg Prod.snd heq
        simpa using this.symm
      rw [hv] at ht
      have ht2 := upperTokens_clean_trailing_parts ht
      have hmk : (String.mk (removeNp ((upperTokens (pyJoin " "
          (entry_templates.map Prod.snd)).data).filter
            (fun t => !(entry_fields.any (fun kv => kv.1.data = t)))) v0.data)).data =
          removeNp ((upperTokens (pyJoin " " (entry_templates.map Prod.snd)).data).filter
            (fun t => !(entry_fields.any (fun kv => kv.1.data = t)))) v0.data := rfl
      rw [hmk] at ht2
      obtain ⟨hmem0, hfree⟩ := upperTokens_removeNp ht2
      have hused := mem_used_of_mem_slot entry_templates k0 v0 hmem t hmem0
      have hmemf : t ∈ ((upperTokens (pyJoin " " (entry_templates.map Prod.snd)).data).filter
          (fun t => !(entry_fields.any (fun kv => kv.1.data = t)))) :=
        List.mem_filter.mpr ⟨hused, by simp [hany]⟩
      exact hfree t hmemf rfl

/-! ### Second-pass cleanup lemmas -/

theorem splitlinesList_single {a : List Char} (hne : a ≠ []) (hnl : '\n' ∉ a) :
    splitlinesList a = [a] := by
  induction a with
  | nil => exact absurd rfl hne
  | cons c a' ih =>
    have hc : c ≠ '\n' := by
      intro e
      exact hnl (by rw [e]; simp)
    rw [splitlinesList_cons_other hc]
    cases a' with
    | nil => rfl
    | cons d a'' =>
      have h2 : splitlinesList (d :: a'') = [d :: a''] :=
        ih (by simp) (fun e => hnl (List.mem_cons_of_mem c e))
      rw [h2]

theorem splitlinesList_append_newline {a : List Char} (hnl : '\n' ∉ a)
    (y : List Char) : splitlinesList (a ++ '\n' :: y) = a :: splitlinesList y := by
  induction a with
  | nil =>
    rw [List.nil_append, splitlinesList_cons_newline]
    cases hy : splitlinesList y <;> simp
  | cons c a' ih =>
    have hc : c ≠ '\n' := by
      intro e
      exact hnl (by rw [e]; simp)
    rw [List.cons_append, splitlinesList_cons_other hc,
      ih (fun e => hnl (List.mem_cons_of_mem c e))]

theorem getLast?_eq_some_mem {α : Type} {l : List α} {a : α}
    (h : l.getLast? = some a) : a ∈ l := by
  induction l with
  | nil => simp at h
  | cons x rest ih =>
    cases rest with
    | nil =>
      simp only [List.getLast?_singleton, Option.some.injEq] at h
      simp [h]
    | cons y rest' =>
      rw [List.getLast?_cons_cons] at h
      exact List.mem_cons_of_mem x (ih h)

/-- Splitting the newline join of newline-free lines recovers the lines,
except that one trailing empty line is absorbed. -/
theorem splitlinesList_joinLines {ms : List (List Char)}
    (h : ∀ r ∈ ms, '\n' ∉ r) :
    splitlinesList (joinLines ms) =
      if ms.getLast? = some [] then ms.dropLast else ms := by
  induction ms with
  | nil => rfl
  | cons a rest ih =>
    cases rest with
    | nil =>
      by_cases ha : a = []
      · subst ha
        simp [joinLines, splitlinesList]
      · have h1 : splitlinesList a = [a] :=
          splitlinesList_single ha (h a (by simp))
        have h2 : ([a] : List (List Char)).getLast? = some a := rfl
        simp only [joinLines, h1, h2, Option.some.injEq]
        rw [if_neg ha]
    | cons b rest' =>
      have hj : joinLines (a :: b :: rest') = a ++ '\n' :: joinLines (b :: rest') := rfl
      rw [hj, splitlinesList_append_newline (h a (by simp)),
        ih (fun r hr => h r (List.mem_cons_of_mem a hr))]
      rw [List.getLast?_cons_cons]
      by_cases hlast : (b :: rest').getLast? = some ([] : List Char)
      · rw [if_pos hlast, if_pos hlast, List.dropLast_cons₂]
      · rw [if_neg hlast, if_neg hlast]

theorem filterMap_cleanLine_stable {ls : List (List Char)}
    (h : ∀ r ∈ ls, cleanLine r = some r) : ls.filterMap cleanLine = ls := by
  induction ls with
  | nil => rfl
  | cons r rest ih =>
    rw [List.filterMap_cons, h r (by simp), ih (fun r' hr' => h r' (List.mem_cons_of_mem r hr'))]

/-- The cleaned lines of any text: newline-free, and each either empty or
a fixed point of line cleanup. -/
theorem cleanLines_props (x : String) :
    ∀ r ∈ (splitlinesList x.data).filterMap cleanLine,
      '\n' ∉ r ∧ (r = [] ∨ cleanLine r = some r) := by
  intro r hr
  rw [List.mem_filterMap] at hr
  obtain ⟨line, hline, hcl⟩ := hr
  obtain ⟨junk, hdec, _⟩ := cleanLine_decomp hcl
  constructor
  · intro hmem
    have : ('\n' : Char) ∈ line := by
      rw [hdec]
      exact List.mem_append_left _ hmem
    exact no_newline_in_splitlines line hline this
  · exact cleanLine_stable_of_some hcl

/-- The lines of the cleaned text, cleaned once more, are nonempty fixed
points of line cleanup, and newline-free. -/
theorem cleanLines_second_props (x : String) :
    ∀ r ∈ (splitlinesList (clean_trailing_parts x).data).filterMap cleanLine,
      r ≠ [] ∧ cleanLine r = some r ∧ '\n' ∉ r := by
  intro r hr
  have hdata : (clean_trailing_parts x).data =
      joinLines ((splitlinesList x.data).filterMap cleanLine) := rfl
  rw [hdata] at hr
  have hprops := cleanLines_props x
  have hnl : ∀ r' ∈ (splitlinesList x.data).filterMap cleanLine,
      '\n' ∉ r' := fun r' hr' => (hprops r' hr').1
  rw [splitlinesList_joinLines hnl] at hr
  rw [List.mem_filterMap] at hr
  obtain ⟨r0, hr0, hclr0⟩ := hr
  have hr0mem : r0 ∈ (splitlinesList x.data).filterMap cleanLine := by
    by_cases hc : ((splitlinesList x.data).filterMap
        cleanLine).getLast? = some ([] : List Char)
    · rw [if_pos hc] at hr0
      exact List.mem_of_mem_dropLast hr0
    · rw [if_neg hc] at hr0
      exact hr0
  obtain ⟨hnl0, hstab⟩ := hprops r0 hr0mem
  rcases hstab with hempty | hstab
  · subst hempty
    exact absurd hclr0 (by simp [cleanLine, rstripList])
  · rw [hstab] at hclr0
    have : r = r0 := by
      injection hclr0 with h0
      exact h0.symm
    subst this
    refine ⟨?_, hstab, hnl0⟩
    intro he
    subst he
    exact absurd hstab (by simp [cleanLine, rstripList])

/-- Claim C2 counterexample: trailing-character cleanup is not
idempotent.  The middle line `"-"` is right-stripped to a nonempty line,
survives the empty-line check, and only then is cleaned to an empty
line, which the next pass drops. -/
theorem claim_C2_counterexample :
    clean_trailing_parts (clean_trailing_parts "a\n-\nb") ≠
      clean_trailing_parts "a\n-\nb" := by
  decide

/-- Claim C2 amended: two applications of trailing-character cleanup
reach a fixed point, so the function composed with itself is idempotent:
a third application changes nothing. -/
theorem claim_C2_amended (x : String) :
    clean_trailing_parts (clean_trailing_parts (clean_trailing_parts x)) =
      clean_trailing_parts (clean_trailing_parts x) := by
  have hprops := cleanLines_second_props x
  have hnl : ∀ r ∈ (splitlinesList (clean_trailing_parts x).data).filterMap cleanLine,
      '\n' ∉ r := fun r hr => (hprops r hr).2.2
  have hstab : ∀ r ∈ (splitlinesList (clean_trailing_parts x).data).filterMap cleanLine,
      cleanLine r = some r := fun r hr => (hprops r hr).2.1
  have hdata : (clean_trailing_parts (clean_trailing_parts x)).data =
      joinLines ((splitlinesList (clean_trailing_parts x).data).filterMap cleanLine) := rfl
  have hsplit : splitlinesList (clean_trailing_parts (clean_trailing_parts x)).data =
      (splitlinesList (clean_trailing_parts x).data).filterMap cleanLine := by
    rw [hdata, splitlinesList_joinLines hnl]
    rw [if_neg ?_]
    intro hc
    exact (hprops [] (getLast?_eq_some_mem hc)).1 rfl
  show String.mk (joinLines ((splitlinesList (clean_trailing_parts
      (clean_trailing_parts x)).data).filterMap cleanLine)) = _
  rw [hsplit, filterMap_cleanLine_stable hstab, ← hdata]

/-- Witness for claim C1 at the spec's worked example. -/
theorem claim_C1_elision_complete_witness :
    (("title", "POSITION at COMPANY") ∈ remove_not_provided_placeholders
        [("title", "POSITION at COMPANY, LOCATION")]
        [("POSITION", Value.str "Engineer"), ("COMPANY", Value.str "Acme")]) ∧
    ("POSITION".data ∈ upperTokens "POSITION at COMPANY".data) ∧
    ([("POSITION", Value.str "Engineer"), ("COMPANY", Value.str "Acme")].any
        (fun kv => kv.1.data = "POSITION".data) = true) :=
  ⟨by decide, by decide,
    claim_C1_elision_complete [("title", "POSITION at COMPANY, LOCATION")]
      [("POSITION", Value.str "Engineer"), ("COMPANY", Value.str "Acme")]
      "title" "POSITION at COMPANY" (by decide) "POSITION".data (by decide)⟩

/-- Concrete external collaborators used by witnesses: tagged formatter
outputs and an identity URL cleaner. -/
def extWitness : Externals :=
  ⟨fun _ t => "single:" ++ t, fun _ _ _ t => "range:" ++ t,
    fun _ _ t => "span:" ++ t, fun u => u⟩

/-- Claim C5: `process_date` returns the single-date formatter's result
verbatim when only a single date is present, the range (optionally
joined with the time span by a blank line) when both range endpoints are
present, and fails otherwise.  Date values are restricted to the data
model's value space, where a present date is never the empty string or
the integer zero. -/
theorem claim_C5_process_date_routing (ext : Externals)
    (date start_date end_date : Option Value) (show_time_span : Bool)
    (t1 t2 t3 : String)
    (hd : ∀ v, date = some v → v.truthy = true)
    (hs : ∀ v, start_date = some v → v.truthy = true)
    (he : ∀ v, end_date = some v → v.truthy = true) :
    (∀ d, date = some d → start_date = none → end_date = none →
      process_date ext date start_date end_date show_time_span t1 t2 t3 =
        .ok (ext.format_single_date d t1)) ∧
    (∀ s e, start_date = some s → end_date = some e →
      process_date ext date start_date end_date show_time_span t1 t2 t3 =
        (if show_time_span then
          .ok (ext.format_date_range s e t1 t2 ++ "\n\n" ++
            ext.compute_time_span_string s e t3)
        else .ok (ext.format_date_range s e t1 t2))) ∧
    ((date = none ∨ start_date ≠ none ∨ end_date ≠ none) →
      (start_date = none ∨ end_date = none) →
      process_date ext date start_date end_date show_time_span t1 t2 t3 =
        .error "Date is not provided for this entry.") := by
  refine ⟨?_, ?_, ?_⟩
  · intro d hdd hsd hed
    subst hdd; subst hsd; subst hed
    have htd : d.truthy = true := hd d rfl
    simp [process_date, optTruthy, htd]
  · intro s e hsd hed
    subst hsd; subst hed
    have hts : s.truthy = true := hs s rfl
    have hte : e.truthy = true := he e rfl
    by_cases hst : show_time_span
    · simp [process_date, optTruthy, hts, hte, hst]
    · simp [process_date, optTruthy, hts, hte, hst]
  · intro h1 h2
    rcases h2 with h2 | h2
    · subst h2
      rcases h1 with h1 | h1 | h1
      · subst h1
        simp [process_date, optTruthy]
      · exact absurd rfl h1
      · cases end_date with
        | none => exact absurd rfl h1
        | some e =>
          have hte : e.truthy = true := he e rfl
          simp [process_date, optTruthy, hte]
    · subst h2
      cases start_date with
      | none =>
        rcases h1 with h1 | h1 | h1
        · subst h1
          simp [process_date, optTruthy]
        · exact absurd rfl h1
        · exact absurd rfl h1
      | some s =>
        have hts : s.truthy = true := hs s rfl
        simp [process_date, optTruthy, hts]

/-- Witness for claim C5 at a concrete publication-style single date. -/
theorem claim_C5_witness :
    process_date extWitness (some (.str "2024-03")) none none false "sd" "dr" "ts" =
      .ok (extWitness.format_single_date (.str "2024-03") "sd") :=
  (claim_C5_process_date_routing extWitness (some (.str "2024-03")) none none false
    "sd" "dr" "ts"
    (fun v hv => by cases hv; decide)
    (fun v hv => by cases hv)
    (fun v hv => by cases hv)).1 (.str "2024-03") rfl rfl rfl

/-- A publication entry carrying both a DOI and a URL. -/
def pubDOI : StructEntry :=
  ⟨"publication_entry", true,
    [("doi", Value.str "10.1000/xyz123"), ("url", Value.str "https://example.com/paper")]⟩

/-- Claim C6: the code returns the bare canonical DOI URL where its own
docstring promises the markdown link
`[10.1000/xyz123](https://doi.org/10.1000/xyz123)`; the DOI is still
preferred over the URL, and the failure cases hold. -/
theorem claim_C6_doi_not_markdown :
    process_doi pubDOI = .ok "https://doi.org/10.1000/xyz123" ∧
    process_doi pubDOI ≠ .ok "[10.1000/xyz123](https://doi.org/10.1000/xyz123)" ∧
    process_url extWitness pubDOI = .ok "https://doi.org/10.1000/xyz123" ∧
    process_url extWitness pubDOI ≠
      .ok ("[" ++ extWitness.clean_url "https://example.com/paper" ++
        "](https://example.com/paper)") ∧
    process_doi ⟨"experience_entry", false, [("doi", Value.str "10.1000/xyz123")]⟩ =
      .error "DOI is not provided for this entry." ∧
    process_doi ⟨"publication_entry", true,
        [("url", Value.str "https://example.com/paper")]⟩ =
      .error "DOI is not provided for this entry." := by
  refine ⟨rfl, ?_, rfl, ?_, rfl, rfl⟩
  · intro h
    exact absurd (Except.ok.inj h) (by decide)
  · intro h
    exact absurd (Except.ok.inj h) (by decide)

/-- Claim C8: elision plus cleanup on the spec's example template, and
the subsequent substitution. -/
theorem claim_C8_round_trip :
    remove_not_provided_placeholders [("title", "POSITION at COMPANY, LOCATION")]
        [("POSITION", Value.str "Engineer"), ("COMPANY", Value.str "Acme")] =
      [("title", "POSITION at COMPANY")] ∧
    substitute_placeholders "POSITION at COMPANY"
        [("POSITION", Value.str "Engineer"), ("COMPANY", Value.str "Acme")] =
      "Engineer at Acme" :=
  ⟨by decide, by decide⟩

/-! ### Summary indentation lemmas -/

theorem splitKeepEnds_append_newline {acc : List Char} (h : '\n' ∉ acc)
    (cs : List Char) :
    splitKeepEnds (acc ++ '\n' :: cs) = (acc ++ ['\n']) :: splitKeepEnds cs := by
  induction acc with
  | nil =>
    rw [List.nil_append]
    show splitKeepEnds ('\n' :: cs) = ['\n'] :: splitKeepEnds cs
    cases hcs : splitKeepEnds cs <;> simp [splitKeepEnds, hcs]
  | cons c acc' ih =>
    have hc : c ≠ '\n' := by
      intro e
      exact h (by rw [e]; simp)
    have ih2 := ih (fun e => h (List.mem_cons_of_mem c e))
    rw [List.cons_append]
    show splitKeepEnds (c :: (acc' ++ '\n' :: cs)) = _
    simp only [splitKeepEnds, ih2, if_neg hc, List.cons_append]

theorem splitKeepEnds_no_newline {acc : List Char} (h : '\n' ∉ acc) :
    splitKeepEnds acc = if acc = [] then [] else [acc] := by
  induction acc with
  | nil => rfl
  | cons c acc' ih =>
    have hc : c ≠ '\n' := by
      intro e
      exact h (by rw [e]; simp)
    have ih2 := ih (fun e => h (List.mem_cons_of_mem c e))
    by_cases ha : acc' = []
    · subst ha
      simp [splitKeepEnds]
    · rw [if_neg ha] at ih2
      simp [splitKeepEnds, ih2, hc]

/-- The one-pass spec-side indentation agrees with the
split-map-join implementation of `textwrap.indent`. -/
theorem specIndentContent_eq (pre : List Char) :
    ∀ (l acc : List Char), '\n' ∉ acc →
      specIndentContent pre acc l =
        ((splitKeepEnds (acc ++ l)).map
          (fun line => if line.any (fun c => !isPySpace c) then pre ++ line
            else line)).flatten := by
  intro l
  induction l with
  | nil =>
    intro acc h
    rw [List.append_nil, splitKeepEnds_no_newline h]
    by_cases ha : acc = []
    · subst ha
      simp [specIndentContent, emitLineC]
    · rw [if_neg ha]
      simp only [specIndentContent, emitLineC, List.map_cons, List.map_nil,
        List.flatten_cons, List.flatten_nil, List.append_nil]
  | cons c cs ih =>
    intro acc h
    by_cases hc : c = '\n'
    · subst hc
      simp only [specIndentContent, if_pos rfl]
      rw [ih [] (by simp), splitKeepEnds_append_newline h]
      simp only [List.map_cons, List.flatten_cons, List.nil_append]
      congr 1
    · simp only [specIndentContent, if_neg hc]
      have hmem : '\n' ∉ acc ++ [c] := by
        intro e
        rcases List.mem_append.mp e with e | e
        · exact h e
        · simp only [List.mem_cons, List.not_mem_nil, or_false] at e
          exact hc e.symm
      rw [ih (acc ++ [c]) hmem, List.append_assoc]
      rfl

/-- Claim C7 counterexample: a whitespace-only line is not indented by
`process_summary`, against the claim's "every line indented by four
spaces". -/
theorem claim_C7_counterexample :
    process_summary "a\n\nb" ≠ process_summary_spec "a\n\nb" := by
  decide

/-- Claim C7 amended: `process_summary` is the header plus the original
text in which exactly the lines containing a non-whitespace character
are indented by four spaces; whitespace-only lines are left unchanged,
and no rewrapping happens. -/
theorem claim_C7_amended (s : String) :
    process_summary s =
      "!!! summary\n" ++ String.mk (specIndentContent "    ".data [] s.data) := by
  unfold process_summary textwrapIndent
  exact congrArg (fun t => "!!! summary\n" ++ String.mk t)
    (specIndentContent_eq "    ".data s.data [] (by simp)).symm

/-! ### Dictionary lemmas -/

theorem dictGet?_dictSet_self {α : Type} (k : String) (v : α) (m : List (String × α)) :
    dictGet? (dictSet k v m) k = some v := by
  induction m with
  | nil => simp [dictSet, dictGet?]
  | cons kv rest ih =>
    by_cases h : kv.1 = k
    · simp [dictSet, dictGet?, h]
    · simp [dictSet, dictGet?, h, ih]

theorem dictGet?_dictSet_ne {α : Type} {k k' : String} (hne : k' ≠ k) (v : α)
    (m : List (String × α)) : dictGet? (dictSet k v m) k' = dictGet? m k' := by
  induction m with
  | nil =>
    have : k ≠ k' := fun e => hne e.symm
    simp [dictSet, dictGet?, this]
  | cons kv rest ih =>
    by_cases h : kv.1 = k
    · have h4 : k ≠ k' := fun e => hne e.symm
      simp [dictSet, dictGet?, h, h4]
    · by_cases h3 : kv.1 = k'
      · have h4 : ¬(k' = k) := hne
        simp [dictSet, dictGet?, h, h3, h4]
      · simp [dictSet, dictGet?, h, h3, ih]

theorem hasKey_dictSet_self {α : Type} (k : String) (v : α) (m : List (String × α)) :
    hasKey (dictSet k v m) k = true := by
  simp [hasKey, dictGet?_dictSet_self]

theorem hasKey_dictSet_iff {α : Type} {k k' : String} {v : α} {m : List (String × α)} :
    hasKey (dictSet k v m) k' = true ↔ (k' = k ∨ hasKey m k' = true) := by
  by_cases h : k' = k
  · subst h
    simp [hasKey_dictSet_self]
  · rw [hasKey, dictGet?_dictSet_ne h]
    simp [hasKey, h]

theorem hasKey_dictSet_existing {α : Type} {k : String} {m : List (String × α)}
    (h : hasKey m k = true) (v : α) (k' : String) :
    hasKey (dictSet k v m) k' = hasKey m k' := by
  by_cases he : k' = k
  · subst he
    rw [h, hasKey_dictSet_self]
  · rw [hasKey, dictGet?_dictSet_ne he]
    rfl

theorem hasKey_of_mem {α : Type} {m : List (String × α)} {k : String} {v : α}
    (h : (k, v) ∈ m) : hasKey m k = true := by
  induction m with
  | nil => exact absurd h (by simp)
  | cons kv rest ih =>
    rcases List.mem_cons.mp h with h | h
    · subst h
      simp [hasKey, dictGet?]
    · by_cases he : kv.1 = k
      · simp [hasKey, dictGet?, he]
      · simp only [hasKey, dictGet?, he, Bool.false_eq_true, if_false]
        exact ih h

theorem keys_dictSet {α : Type} (k : String) (v : α) (m : List (String × α)) :
    (dictSet k v m).map Prod.fst =
      if hasKey m k then m.map Prod.fst else m.map Prod.fst ++ [k] := by
  induction m with
  | nil => simp [dictSet, hasKey, dictGet?]
  | cons kv rest ih =>
    by_cases h : kv.1 = k
    · simp [dictSet, hasKey, dictGet?, h]
    · have hh : hasKey (kv :: rest) k = hasKey rest k := by
        simp [hasKey, dictGet?, h]
      simp only [dictSet, h, Bool.false_eq_true, if_false, List.map_cons]
      rw [ih, hh]
      cases h2 : hasKey rest k
      · simp
      · simp

theorem not_mem_keys_of_not_hasKey {α : Type} {m : List (String × α)} {k : String}
    (h : hasKey m k = false) : k ∉ m.map Prod.fst := by
  induction m with
  | nil => simp
  | cons kv rest ih =>
    simp only [hasKey, dictGet?] at h
    by_cases he : kv.1 = k
    · simp [he] at h
    · simp only [he, Bool.false_eq_true, if_false] at h
      simp only [List.map_cons, List.mem_cons]
      rintro (e | e)
      · exact he e.symm
      · exact ih h e

theorem keys_nodup_dictSet {α : Type} (k : String) (v : α) {m : List (String × α)}
    (h : (m.map Prod.fst).Nodup) : ((dictSet k v m).map Prod.fst).Nodup := by
  rw [keys_dictSet]
  cases hk : hasKey m k
  · simp only [Bool.false_eq_true, if_false]
    rw [List.nodup_append]
    exact ⟨h, List.nodup_singleton k, by
      intro a ha hb
      simp only [List.mem_singleton] at hb
      subst hb
      exact not_mem_keys_of_not_hasKey hk ha⟩
  · simpa using h

theorem setAll_keys_nodup {α : Type} (b : List (String × α)) :
    ∀ (a : List (String × α)), (a.map Prod.fst).Nodup →
      ((setAll a b).map Prod.fst).Nodup := by
  induction b with
  | nil => intro a h; exact h
  | cons kv rest ih =>
    intro a h
    exact ih (dictSet kv.1 kv.2 a) (keys_nodup_dictSet kv.1 kv.2 h)

theorem renderLoop_get_notmem (fm : List (String × Value)) :
    ∀ (xs attrs : List (String × Value)) (k : String), k ∉ xs.map Prod.fst →
      dictGet? (renderLoop fm attrs xs) k = dictGet? attrs k := by
  intro xs
  induction xs with
  | nil => intro attrs k _; rfl
  | cons kv rest ih =>
    intro attrs k hk
    simp only [List.map_cons, List.mem_cons] at hk
    push_neg at hk
    obtain ⟨hk1, hk2⟩ := hk
    cases kv with
    | mk k1 v1 =>
      show dictGet? (renderLoop fm (dictSet k1 _ attrs) rest) k = _
      rw [ih _ k hk2, dictGet?_dictSet_ne hk1]

theorem renderLoop_get_mem (fm : List (String × Value)) :
    ∀ (xs attrs : List (String × Value)) (k : String) (v : Value),
      (xs.map Prod.fst).Nodup → (k, v) ∈ xs →
      dictGet? (renderLoop fm attrs xs) k =
        some (.str (substitute_placeholders v.asStr fm)) := by
  intro xs
  induction xs with
  | nil => intro attrs k v _ h; exact absurd h (by simp)
  | cons kv rest ih =>
    intro attrs k v hnd h
    cases kv with
    | mk k1 v1 =>
      rcases List.mem_cons.mp h with h | h
      · injection h with e1 e2
        subst e1; subst e2
        show dictGet? (renderLoop fm (dictSet k _ attrs) rest) k = _
        have hk : k ∉ rest.map Prod.fst := by
          simp only [List.map_cons, List.nodup_cons] at hnd
          exact hnd.1
        rw [renderLoop_get_notmem fm rest _ k hk, dictGet?_dictSet_self]
      · show dictGet? (renderLoop fm (dictSet k1 _ attrs) rest) k = _
        have hnd2 : (rest.map Prod.fst).Nodup := by
          simp only [List.map_cons, List.nodup_cons] at hnd
          exact hnd.2
        exact ih _ k v hnd2 h

theorem remove_np_keys (ts : List (String × String)) (fs : List (String × Value)) :
    (remove_not_provided_placeholders ts fs).map Prod.fst = ts.map Prod.fst := by
  simp only [remove_not_provided_placeholders]
  split
  · rfl
  · simp

theorem mergedTemplates_keys_nodup {ts : List (String × String)}
    (fs : List (String × Value)) (h : (ts.map Prod.fst).Nodup) :
    ((mergedTemplates ts fs).map Prod.fst).Nodup := by
  unfold mergedTemplates
  refine setAll_keys_nodup fs _ ?_
  simpa using h

/-! ### Rendering lemmas -/

theorem render_error_of_build_error {ext : Externals} {tpl : Templates} {sts : Bool}
    {e : StructEntry} {ets : List (String × String)} {m : String}
    (hts : dictGet? tpl.entry_templates e.entry_type_in_snake_case = some ets)
    (hb : build_entry_fields ext tpl sts e = .error m) :
    render_entry_templates ext tpl sts (.structured e) = .error m := by
  simp only [render_entry_templates, hts, hb]
  rfl

theorem render_ok_of_build_ok {ext : Externals} {tpl : Templates} {sts : Bool}
    {e : StructEntry} {ets : List (String × String)} {fm : List (String × Value)}
    (hts : dictGet? tpl.entry_templates e.entry_type_in_snake_case = some ets)
    (hb : build_entry_fields ext tpl sts e = .ok fm) :
    render_entry_templates ext tpl sts (.structured e) =
      .ok (.structured ⟨e.entry_type_in_snake_case, e.is_publication,
        renderLoop fm e.attrs
          (mergedTemplates (remove_not_provided_placeholders ets fm) fm)⟩) := by
  simp only [render_entry_templates, hts, hb]
  rfl

/-- Claim C9: rendering is atomic.  For an entry whose variant has
configured templates, either the field-map construction fails and the
very same error is what `render_entry_templates` returns (the entry is
never touched), or it succeeds and every key of the union of elided
templates and field map is written with its substituted string. -/
theorem claim_C9_atomicity (ext : Externals) (tpl : Templates) (sts : Bool)
    (e : StructEntry) (ets : List (String × String))
    (hts : dictGet? tpl.entry_templates e.entry_type_in_snake_case = some ets)
    (hnd : (ets.map Prod.fst).Nodup) :
    (∃ m, build_entry_fields ext tpl sts e = .error m ∧
      render_entry_templates ext tpl sts (.structured e) = .error m) ∨
    (∃ fm e2, build_entry_fields ext tpl sts e = .ok fm ∧
      render_entry_templates ext tpl sts (.structured e) = .ok (.structured e2) ∧
      ∀ k v, (k, v) ∈ mergedTemplates (remove_not_provided_placeholders ets fm) fm →
        dictGet? e2.attrs k =
          some (.str (substitute_placeholders v.asStr fm))) := by
  cases hb : build_entry_fields ext tpl sts e with
  | error m => exact Or.inl ⟨m, rfl, render_error_of_build_error hts hb⟩
  | ok fm =>
    refine Or.inr ⟨fm, _, rfl, render_ok_of_build_ok hts hb, ?_⟩
    intro k v hkv
    refine renderLoop_get_mem fm _ e.attrs k v ?_ hkv
    refine mergedTemplates_keys_nodup fm ?_
    rw [remove_np_keys]
    exact hnd

/-- The concrete entry and template configuration used by the C3 and C9
examples: one template slot `title = "COMPANY"` and one field
`company = "Acme"`. -/
def eC3 : StructEntry := ⟨"experience_entry", false, [("company", Value.str "Acme")]⟩

/-- Template set for the C3 and C9 examples. -/
def tplC3 : Templates := ⟨[("experience_entry", [("title", "COMPANY")])], "sd", "dr", "ts"⟩

/-- Witness for claim C9 at the concrete example. -/
theorem claim_C9_atomicity_witness :
    (∃ m, build_entry_fields extWitness tplC3 false eC3 = .error m ∧
      render_entry_templates extWitness tplC3 false (.structured eC3) = .error m) ∨
    (∃ fm e2, build_entry_fields extWitness tplC3 false eC3 = .ok fm ∧
      render_entry_templates extWitness tplC3 false (.structured eC3) =
        .ok (.structured e2) ∧
      ∀ k v, (k, v) ∈ mergedTemplates
          (remove_not_provided_placeholders [("title", "COMPANY")] fm) fm →
        dictGet? e2.attrs k =
          some (.str (substitute_placeholders v.asStr fm))) :=
  claim_C9_atomicity extWitness tplC3 false eC3 [("title", "COMPANY")] rfl (by decide)

/-- Claim C3 counterexample: the final loop assigns with the key as is,
so the uppercase field key COMPANY becomes a new uppercase attribute,
where the claim's lower-casing would have written the existing lowercase
attribute. -/
theorem claim_C3_counterexample :
    render_entry_templates extWitness tplC3 false (.structured eC3) =
      .ok (.structured ⟨"experience_entry", false,
        [("company", Value.str "Acme"), ("title", Value.str "Acme"),
          ("COMPANY", Value.str "Acme")]⟩) ∧
    render_entry_templates_lowered extWitness tplC3 false (.structured eC3) =
      .ok (.structured ⟨"experience_entry", false,
        [("company", Value.str "Acme"), ("title", Value.str "Acme")]⟩) ∧
    (⟨"experience_entry", false,
        [("company", Value.str "Acme"), ("title", Value.str "Acme"),
          ("COMPANY", Value.str "Acme")]⟩ : StructEntry) ≠
      ⟨"experience_entry", false,
        [("company", Value.str "Acme"), ("title", Value.str "Acme")]⟩ :=
  ⟨rfl, rfl, by decide⟩

/-- Claim C3 amended: for every key of the union of the elided template
mapping and the field map, `render_entry_templates` assigns the
placeholder-substituted string to the attribute whose name is that key
itself (template slot keys are already lowercase; field-map keys are
written in their uppercase form). -/
theorem claim_C3_assignment (ext : Externals) (tpl : Templates) (sts : Bool)
    (e : StructEntry) (ets : List (String × String)) (fm : List (String × Value))
    (hts : dictGet? tpl.entry_templates e.entry_type_in_snake_case = some ets)
    (hnd : (ets.map Prod.fst).Nodup)
    (hb : build_entry_fields ext tpl sts e = .ok fm) :
    ∃ e2, render_entry_templates ext tpl sts (.structured e) = .ok (.structured e2) ∧
      ∀ k v, (k, v) ∈ mergedTemplates (remove_not_provided_placeholders ets fm) fm →
        dictGet? e2.attrs k =
          some (.str (substitute_placeholders v.asStr fm)) := by
  refine ⟨_, render_ok_of_build_ok hts hb, ?_⟩
  intro k v hkv
  refine renderLoop_get_mem fm _ e.attrs k v ?_ hkv
  refine mergedTemplates_keys_nodup fm ?_
  rw [remove_np_keys]
  exact hnd

/-- Witness for the amended claim C3 at the concrete example. -/
theorem claim_C3_assignment_witness :
    ∃ e2, render_entry_templates extWitness tplC3 false (.structured eC3) =
        .ok (.structured e2) ∧
      ∀ k v, (k, v) ∈ mergedTemplates
          (remove_not_provided_placeholders [("title", "COMPANY")]
            [("COMPANY", Value.str "Acme")]) [("COMPANY", Value.str "Acme")] →
        dictGet? e2.attrs k =
          some (.str (substitute_placeholders v.asStr [("COMPANY", Value.str "Acme")])) :=
  claim_C3_assignment extWitness tplC3 false eC3 [("title", "COMPANY")]
    [("COMPANY", Value.str "Acme")] rfl (by decide) rfl

/-! ### Field-map construction step lemmas -/

theorem step_highlights_keys {e : StructEntry} {fs fs' : List (String × Value)}
    (h : step_highlights e fs = .ok fs') : ∀ k, hasKey fs' k = hasKey fs k := by
  unfold step_highlights at h
  by_cases hh : hasKey fs "HIGHLIGHTS" = true
  · rw [if_pos hh] at h
    cases hga : e.getattr? "highlights" with
    | none => rw [hga] at h; exact absurd h (by simp)
    | some v =>
      rw [hga] at h
      injection h with h2
      subst h2
      intro k
      exact hasKey_dictSet_existing hh _ k
  · rw [if_neg hh] at h
    injection h with h2
    subst h2
    intro k
    rfl

theorem step_authors_keys {e : StructEntry} {fs fs' : List (String × Value)}
    (h : step_authors e fs = .ok fs') : ∀ k, hasKey fs' k = hasKey fs k := by
  unfold step_authors at h
  by_cases hh : hasKey fs "AUTHORS" = true
  · rw [if_pos hh] at h
    cases hga : e.getattr? "authors" with
    | none => rw [hga] at h; exact absurd h (by simp)
    | some v =>
      rw [hga] at h
      injection h with h2
      subst h2
      intro k
      exact hasKey_dictSet_existing hh _ k
  · rw [if_neg hh] at h
    injection h with h2
    subst h2
    intro k
    rfl

theorem step_start_date_keys {ext : Externals} {tpl : Templates} {e : StructEntry}
    {fs fs' : List (String × Value)}
    (h : step_start_date ext tpl e fs = .ok fs') : ∀ k, hasKey fs' k = hasKey fs k := by
  unfold step_start_date at h
  by_cases hh : hasKey fs "START_DATE" = true
  · rw [if_pos hh] at h
    cases hga : e.getattr? "start_date" with
    | none => rw [hga] at h; exact absurd h (by simp)
    | some v =>
      rw [hga] at h
      injection h with h2
      subst h2
      intro k
      exact hasKey_dictSet_existing hh _ k
  · rw [if_neg hh] at h
    injection h with h2
    subst h2
    intro k
    rfl

theorem step_end_date_keys {ext : Externals} {tpl : Templates} {e : StructEntry}
    {fs fs' : List (String × Value)}
    (h : step_end_date ext tpl e fs = .ok fs') : ∀ k, hasKey fs' k = hasKey fs k := by
  unfold step_end_date at h
  by_cases hh : hasKey fs "END_DATE" = true
  · rw [if_pos hh] at h
    cases hga : e.getattr? "end_date" with
    | none => rw [hga] at h; exact absurd h (by simp)
    | some v =>
      rw [hga] at h
      injection h with h2
      subst h2
      intro k
      exact hasKey_dictSet_existing hh _ k
  · rw [if_neg hh] at h
    injection h with h2
    subst h2
    intro k
    rfl

theorem step_url_keys {ext : Externals} {e : StructEntry}
    {fs fs' : List (String × Value)}
    (h : step_url ext e fs = .ok fs') : ∀ k, hasKey fs' k = hasKey fs k := by
  unfold step_url at h
  by_cases hh : hasKey fs "URL" = true
  · rw [if_pos hh] at h
    cases hpu : process_url ext e with
    | error m => rw [hpu] at h; exact absurd h (by simp)
    | ok s =>
      rw [hpu] at h
      injection h with h2
      subst h2
      intro k
      exact hasKey_dictSet_existing hh _ k
  · rw [if_neg hh] at h
    injection h with h2
    subst h2
    intro k
    rfl

theorem step_summary_keys {fs fs' : List (String × Value)}
    (h : step_summary fs = .ok fs') : ∀ k, hasKey fs' k = hasKey fs k := by
  unfold step_summary at h
  by_cases hh : hasKey fs "SUMMARY" = true
  · rw [if_pos hh] at h
    injection h with h2
    subst h2
    intro k
    exact hasKey_dictSet_existing hh _ k
  · rw [if_neg hh] at h
    injection h with h2
    subst h2
    intro k
    rfl

theorem step_date_keys_fwd {ext : Externals} {tpl : Templates} {sts : Bool}
    {e : StructEntry} {fs fs' : List (String × Value)}
    (h : step_date ext tpl sts e fs = .ok fs') (k : String)
    (hk : hasKey fs' k = true) :
    hasKey fs k = true ∨ (k = "DATE" ∧ (hasKey fs "DATE" = true ∨
      hasKey fs "START_DATE" = true ∨ hasKey fs "END_DATE" = true)) := by
  unfold step_date at h
  by_cases hc : (hasKey fs "DATE" || hasKey fs "START_DATE" || hasKey fs "END_DATE") = true
  · rw [if_pos hc] at h
    cases hpd : process_date ext (e.getattr? "date") (e.getattr? "start_date")
        (e.getattr? "end_date") sts tpl.single_date tpl.date_range tpl.time_span with
    | error m => rw [hpd] at h; exact absurd h (by simp)
    | ok s =>
      rw [hpd] at h
      injection h with h2
      subst h2
      rcases hasKey_dictSet_iff.mp hk with he | he
      · right
        refine ⟨he, ?_⟩
        have := (Bool.or_eq_true _ _).mp hc
        rcases this with h3 | h3
        · rcases (Bool.or_eq_true _ _).mp h3 with h4 | h4
          · exact Or.inl h4
          · exact Or.inr (Or.inl h4)
        · exact Or.inr (Or.inr h3)
      · exact Or.inl he
  · rw [if_neg hc] at h
    injection h with h2
    subst h2
    exact Or.inl hk

theorem step_doi_keys_fwd {ext : Externals} {e : StructEntry}
    {fs fs' : List (String × Value)}
    (h : step_doi ext e fs = .ok fs') (k : String)
    (hk : hasKey fs' k = true) :
    hasKey fs k = true ∨ (k = "URL" ∧ hasKey fs "DOI" = true) := by
  unfold step_doi at h
  by_cases hc : hasKey fs "DOI" = true
  · rw [if_pos hc] at h
    cases hpu : process_url ext e with
    | error m => rw [hpu] at h; exact absurd h (by simp)
    | ok u =>
      rw [hpu] at h
      cases hpd : process_doi e with
      | error m => rw [hpd] at h; exact absurd h (by simp)
      | ok d =>
        rw [hpd] at h
        injection h with h2
        subst h2
        rcases hasKey_dictSet_iff.mp hk with he | he
        · subst he
          exact Or.inl hc
        · rcases hasKey_dictSet_iff.mp he with he2 | he2
          · exact Or.inr ⟨he2, hc⟩
          · exact Or.inl he2
  · rw [if_neg hc] at h
    injection h with h2
    subst h2
    exact Or.inl hk

theorem step_highlights_error {e : StructEntry} {fs : List (String × Value)} {m : String}
    (h : step_highlights e fs = .error m) :
    m = "HIGHLIGHTS in fields but highlights is None" ∧
      hasKey fs "HIGHLIGHTS" = true ∧ e.getattr? "highlights" = none := by
  unfold step_highlights at h
  by_cases hh : hasKey fs "HIGHLIGHTS" = true
  · rw [if_pos hh] at h
    cases hga : e.getattr? "highlights" with
    | none =>
      rw [hga] at h
      injection h with h2
      exact ⟨h2.symm, hh, rfl⟩
    | some v => rw [hga] at h; exact absurd h (by simp)
  · rw [if_neg hh] at h
    exact absurd h (by simp)

theorem step_authors_error {e : StructEntry} {fs : List (String × Value)} {m : String}
    (h : step_authors e fs = .error m) :
    m = "AUTHORS in fields but authors is None" ∧
      hasKey fs "AUTHORS" = true ∧ e.getattr? "authors" = none := by
  unfold step_authors at h
  by_cases hh : hasKey fs "AUTHORS" = true
  · rw [if_pos hh] at h
    cases hga : e.getattr? "authors" with
    | none =>
      rw [hga] at h
      injection h with h2
      exact ⟨h2.symm, hh, rfl⟩
    | some v => rw [hga] at h; exact absurd h (by simp)
  · rw [if_neg hh] at h
    exact absurd h (by simp)

theorem step_start_date_error {ext : Externals} {tpl : Templates} {e : StructEntry}
    {fs : List (String × Value)} {m : String}
    (h : step_start_date ext tpl e fs = .error m) :
    m = "START_DATE in fields but start_date is None" ∧
      hasKey fs "START_DATE" = true ∧ e.getattr? "start_date" = none := by
  unfold step_start_date at h
  by_cases hh : hasKey fs "START_DATE" = true
  · rw [if_pos hh] at h
    cases hga : e.getattr? "start_date" with
    | none =>
      rw [hga] at h
      injection h with h2
      exact ⟨h2.symm, hh, rfl⟩
    | some v => rw [hga] at h; exact absurd h (by simp)
  · rw [if_neg hh] at h
    exact absurd h (by simp)

theorem step_end_date_error {ext : Externals} {tpl : Templates} {e : StructEntry}
    {fs : List (String × Value)} {m : String}
    (h : step_end_date ext tpl e fs = .error m) :
    m = "END_DATE in fields but end_date is None" ∧
      hasKey fs "END_DATE" = true ∧ e.getattr? "end_date" = none := by
  unfold step_end_date at h
  by_cases hh : hasKey fs "END_DATE" = true
  · rw [if_pos hh] at h
    cases hga : e.getattr? "end_date" with
    | none =>
      rw [hga] at h
      injection h with h2
      exact ⟨h2.symm, hh, rfl⟩
    | some v => rw [hga] at h; exact absurd h (by simp)
  · rw [if_neg hh] at h
    exact absurd h (by simp)

theorem process_date_error {ext : Externals} {date sd ed : Option Value} {sts : Bool}
    {t1 t2 t3 : String} {m : String}
    (h : process_date ext date sd ed sts t1 t2 t3 = .error m) :
    m = "Date is not provided for this entry." := by
  unfold process_date at h
  by_cases c1 : (optTruthy date && !(optTruthy sd || optTruthy ed)) = true
  · rw [if_pos c1] at h
    exact absurd h (by simp)
  · rw [if_neg c1] at h
    by_cases c2 : (optTruthy sd && optTruthy ed) = true
    · rw [if_pos c2] at h
      by_cases c3 : sts = true
      · simp only [c3, if_true] at h
        exact absurd h (by simp)
      · simp only [c3, Bool.false_eq_true, if_false] at h
        exact absurd h (by simp)
    · rw [if_neg c2] at h
      injection h with h2
      exact h2.symm

theorem step_date_error {ext : Externals} {tpl : Templates} {sts : Bool}
    {e : StructEntry} {fs : List (String × Value)} {m : String}
    (h : step_date ext tpl sts e fs = .error m) :
    m = "Date is not provided for this entry." := by
  unfold step_date at h
  by_cases hc : (hasKey fs "DATE" || hasKey fs "START_DATE" || hasKey fs "END_DATE") = true
  · rw [if_pos hc] at h
    cases hpd : process_date ext (e.getattr? "date") (e.getattr? "start_date")
        (e.getattr? "end_date") sts tpl.single_date tpl.date_range tpl.time_span with
    | error m2 =>
      rw [hpd] at h
      injection h with h2
      rw [← h2]
      exact process_date_error hpd
    | ok s => rw [hpd] at h; exact absurd h (by simp)
  · rw [if_neg hc] at h
    exact absurd h (by simp)

theorem process_doi_error {e : StructEntry} {m : String}
    (h : process_doi e = .error m) : m = "DOI is not provided for this entry." := by
  unfold process_doi at h
  by_cases hc : (e.is_publication && optTruthy (e.getattr? "doi")) = true
  · rw [if_pos hc] at h
    exact absurd h (by simp)
  · rw [if_neg hc] at h
    injection h with h2
    exact h2.symm

theorem process_url_error {ext : Externals} {e : StructEntry} {m : String}
    (h : process_url ext e = .error m) : m = "URL is not provided for this entry." := by
  unfold process_url at h
  by_cases hc : (e.is_publication && optTruthy (e.getattr? "doi")) = true
  · rw [if_pos hc] at h
    unfold process_doi at h
    rw [if_pos hc] at h
    exact absurd h (by simp)
  · rw [if_neg hc] at h
    by_cases hu : optTruthy (e.getattr? "url") = true
    · rw [if_pos hu] at h
      exact absurd h (by simp)
    · rw [if_neg hu] at h
      injection h with h2
      exact h2.symm

theorem step_url_error {ext : Externals} {e : StructEntry}
    {fs : List (String × Value)} {m : String}
    (h : step_url ext e fs = .error m) : m = "URL is not provided for this entry." := by
  unfold step_url at h
  by_cases hh : hasKey fs "URL" = true
  · rw [if_pos hh] at h
    cases hpu : process_url ext e with
    | error m2 =>
      rw [hpu] at h
      injection h with h2
      rw [← h2]
      exact process_url_error hpu
    | ok s => rw [hpu] at h; exact absurd h (by simp)
  · rw [if_neg hh] at h
    exact absurd h (by simp)

theorem step_doi_error {ext : Externals} {e : StructEntry}
    {fs : List (String × Value)} {m : String}
    (h : step_doi ext e fs = .error m) :
    m = "URL is not provided for this entry." ∨
      m = "DOI is not provided for this entry." := by
  unfold step_doi at h
  by_cases hh : hasKey fs "DOI" = true
  · rw [if_pos hh] at h
    cases hpu : process_url ext e with
    | error m2 =>
      rw [hpu] at h
      injection h with h2
      rw [← h2]
      exact Or.inl (process_url_error hpu)
    | ok u =>
      rw [hpu] at h
      cases hpd : process_doi e with
      | error m3 =>
        rw [hpd] at h
        injection h with h2
        rw [← h2]
        exact Or.inr (process_doi_error hpd)
      | ok d => rw [hpd] at h; exact absurd h (by simp)
  · rw [if_neg hh] at h
    exact absurd h (by simp)

theorem step_summary_ok (fs : List (String × Value)) :
    ∃ fs', step_summary fs = .ok fs' := by
  unfold step_summary
  by_cases hh : hasKey fs "SUMMARY" = true
  · rw [if_pos hh]
    exact ⟨_, rfl⟩
  · rw [if_neg hh]
    exact ⟨fs, rfl⟩

theorem except_bind_ok {α β : Type} (a : α) (f : α → Except String β) :
    (Except.ok a >>= f) = f a := rfl

theorem except_bind_error {α β : Type} (m : String) (f : α → Except String β) :
    ((Except.error m : Except String α) >>= f) = Except.error m := rfl

/-- Well-formedness of an entry per the external schema: pydantic field
names are lowercase snake-case identifiers, so they survive the
upper-then-lower round trip. -/
def WFEntry (e : StructEntry) : Prop :=
  ∀ kv ∈ e.attrs, kv.1 = pyLower (pyUpper kv.1)

theorem hasKey_map_upper {m : List (String × Value)} {K : String} :
    hasKey (m.map (fun kv => (pyUpper kv.1, kv.2))) K = true ↔
      ∃ kv ∈ m, pyUpper kv.1 = K := by
  induction m with
  | nil => simp [hasKey, dictGet?]
  | cons kv rest ih =>
    by_cases h : pyUpper kv.1 = K
    · simp only [List.map_cons, hasKey, dictGet?, h, if_pos]
      constructor
      · intro _
        exact ⟨kv, by simp, h⟩
      · intro _
        simp
    · simp only [List.map_cons, hasKey, dictGet?, h, Bool.false_eq_true, if_false]
      rw [hasKey] at ih
      rw [ih]
      constructor
      · rintro ⟨kv2, hm, hu⟩
        exact ⟨kv2, List.mem_cons_of_mem kv hm, hu⟩
      · rintro ⟨kv2, hm, hu⟩
        rcases List.mem_cons.mp hm with e | e
        · subst e
          exact absurd hu h
        · exact ⟨kv2, e, hu⟩

/-- Under well-formedness, an uppercase key in the initial field map is
backed by the lowercase raw attribute. -/
theorem getattr_ne_none_of_hasKey {e : StructEntry} (hwf : WFEntry e)
    {K k0 : String} (hlow : pyLower K = k0)
    (h : hasKey (initialFields e) K = true) : e.getattr? k0 ≠ none := by
  obtain ⟨kv, hmem, hup⟩ := hasKey_map_upper.mp h
  have hk : kv.1 = k0 := by rw [hwf kv hmem, hup, hlow]
  have hmem2 : (k0, kv.2) ∈ e.attrs := by
    rw [← hk]
    exact hmem
  have hkk : hasKey e.attrs k0 = true := hasKey_of_mem hmem2
  show dictGet? e.attrs k0 ≠ none
  intro hnone
  rw [hasKey, hnone] at hkk
  exact absurd hkk (by simp)

/-- Every error that field-map construction can raise on a well-formed
entry: the four None-guard branches are unreachable. -/
theorem build_error_under_wf {ext : Externals} {tpl : Templates} {sts : Bool}
    {e : StructEntry} (hwf : WFEntry e) {m : String}
    (h : build_entry_fields ext tpl sts e = .error m) :
    m = "Date is not provided for this entry." ∨
      m = "URL is not provided for this entry." ∨
      m = "DOI is not provided for this entry." := by
  unfold build_entry_fields at h
  cases h1 : step_highlights e (initialFields e) with
  | error m1 =>
    exfalso
    obtain ⟨_, hk, hga⟩ := step_highlights_error h1
    exact getattr_ne_none_of_hasKey hwf (by decide) hk hga
  | ok fs1 =>
  rw [h1, except_bind_ok] at h
  cases h2 : step_authors e fs1 with
  | error m2 =>
    exfalso
    obtain ⟨_, hk, hga⟩ := step_authors_error h2
    rw [step_highlights_keys h1 "AUTHORS"] at hk
    exact getattr_ne_none_of_hasKey hwf (by decide) hk hga
  | ok fs2 =>
  rw [h2, except_bind_ok] at h
  cases h3 : step_date ext tpl sts e fs2 with
  | error m3 =>
    rw [h3, except_bind_error] at h
    injection h with he
    subst he
    exact Or.inl (step_date_error h3)
  | ok fs3 =>
  rw [h3, except_bind_ok] at h
  cases h4 : step_start_date ext tpl e fs3 with
  | error m4 =>
    exfalso
    obtain ⟨_, hk, hga⟩ := step_start_date_error h4
    rcases step_date_keys_fwd h3 "START_DATE" hk with hk2 | hk2
    · rw [step_authors_keys h2 "START_DATE", step_highlights_keys h1 "START_DATE"] at hk2
      exact getattr_ne_none_of_hasKey hwf (by decide) hk2 hga
    · exact absurd hk2.1 (by decide)
  | ok fs4 =>
  rw [h4, except_bind_ok] at h
  cases h5 : step_end_date ext tpl e fs4 with
  | error m5 =>
    exfalso
    obtain ⟨_, hk, hga⟩ := step_end_date_error h5
    rw [step_start_date_keys h4 "END_DATE"] at hk
    rcases step_date_keys_fwd h3 "END_DATE" hk with hk2 | hk2
    · rw [step_authors_keys h2 "END_DATE", step_highlights_keys h1 "END_DATE"] at hk2
      exact getattr_ne_none_of_hasKey hwf (by decide) hk2 hga
    · exact absurd hk2.1 (by decide)
  | ok fs5 =>
  rw [h5, except_bind_ok] at h
  cases h6 : step_url ext e fs5 with
  | error m6 =>
    rw [h6, except_bind_error] at h
    injection h with he
    subst he
    exact Or.inr (Or.inl (step_url_error h6))
  | ok fs6 =>
  rw [h6, except_bind_ok] at h
  cases h7 : step_doi ext e fs6 with
  | error m7 =>
    rw [h7, except_bind_error] at h
    injection h with he
    subst he
    rcases step_doi_error h7 with h8 | h8
    · exact Or.inr (Or.inl h8)
    · exact Or.inr (Or.inr h8)
  | ok fs7 =>
  rw [h7, except_bind_ok] at h
  obtain ⟨fs8, h8⟩ := step_summary_ok fs7
  rw [h8] at h
  exact absurd h (by simp)

/-- Claim C10: on a well-formed entry (the field map is built from the
entry's own non-absent attributes), the four None-guard error branches
of `render_entry_templates` are unreachable. -/
theorem claim_C10_none_guards_unreachable (ext : Externals) (tpl : Templates)
    (sts : Bool) (e : StructEntry) (hwf : WFEntry e) :
    build_entry_fields ext tpl sts e ≠
        .error "HIGHLIGHTS in fields but highlights is None" ∧
    build_entry_fields ext tpl sts e ≠
        .error "AUTHORS in fields but authors is None" ∧
    build_entry_fields ext tpl sts e ≠
        .error "START_DATE in fields but start_date is None" ∧
    build_entry_fields ext tpl sts e ≠
        .error "END_DATE in fields but end_date is None" := by
  refine ⟨?_, ?_, ?_, ?_⟩ <;>
    · intro h
      rcases build_error_under_wf hwf h with h2 | h2 | h2 <;>
        exact absurd h2 (by decide)

/-- Witness for claim C10 at a concrete well-formed entry. -/
theorem claim_C10_witness :
    build_entry_fields extWitness tplC3 false eC3 ≠
        .error "HIGHLIGHTS in fields but highlights is None" ∧
    build_entry_fields extWitness tplC3 false eC3 ≠
        .error "AUTHORS in fields but authors is None" ∧
    build_entry_fields extWitness tplC3 false eC3 ≠
        .error "START_DATE in fields but start_date is None" ∧
    build_entry_fields extWitness tplC3 false eC3 ≠
        .error "END_DATE in fields but end_date is None" :=
  claim_C10_none_guards_unreachable extWitness tplC3 false eC3 (by unfold WFEntry; decide)

/-- Keys of the final field map trace back to the initial field map, up
to the DATE and URL additions. -/
theorem build_keys_fwd {ext : Externals} {tpl : Templates} {sts : Bool}
    {e : StructEntry} {fm : List (String × Value)}
    (hb : build_entry_fields ext tpl sts e = .ok fm) (k : String)
    (hk : hasKey fm k = true) :
    hasKey (initialFields e) k = true ∨
      (k = "DATE" ∧ (hasKey (initialFields e) "DATE" = true ∨
        hasKey (initialFields e) "START_DATE" = true ∨
        hasKey (initialFields e) "END_DATE" = true)) ∨
      (k = "URL" ∧ hasKey (initialFields e) "DOI" = true) := by
  unfold build_entry_fields at hb
  cases h1 : step_highlights e (initialFields e) with
  | error m1 => rw [h1, except_bind_error] at hb; exact absurd hb (by simp)
  | ok fs1 =>
  rw [h1, except_bind_ok] at hb
  cases h2 : step_authors e fs1 with
  | error m2 => rw [h2, except_bind_error] at hb; exact absurd hb (by simp)
  | ok fs2 =>
  rw [h2, except_bind_ok] at hb
  cases h3 : step_date ext tpl sts e fs2 with
  | error m3 => rw [h3, except_bind_error] at hb; exact absurd hb (by simp)
  | ok fs3 =>
  rw [h3, except_bind_ok] at hb
  cases h4 : step_start_date ext tpl e fs3 with
  | error m4 => rw [h4, except_bind_error] at hb; exact absurd hb (by simp)
  | ok fs4 =>
  rw [h4, except_bind_ok] at hb
  cases h5 : step_end_date ext tpl e fs4 with
  | error m5 => rw [h5, except_bind_error] at hb; exact absurd hb (by simp)
  | ok fs5 =>
  rw [h5, except_bind_ok] at hb
  cases h6 : step_url ext e fs5 with
  | error m6 => rw [h6, except_bind_error] at hb; exact absurd hb (by simp)
  | ok fs6 =>
  rw [h6, except_bind_ok] at hb
  cases h7 : step_doi ext e fs6 with
  | error m7 => rw [h7, except_bind_error] at hb; exact absurd hb (by simp)
  | ok fs7 =>
  rw [h7, except_bind_ok] at hb
  have down2 : ∀ k', hasKey fs2 k' = hasKey (initialFields e) k' := by
    intro k'
    rw [step_authors_keys h2 k', step_highlights_keys h1 k']
  have down6 : ∀ k', hasKey fs6 k' = hasKey fs3 k' := by
    intro k'
    rw [step_url_keys h6 k', step_end_date_keys h5 k', step_start_date_keys h4 k']
  have hk7 : hasKey fs7 k = true := by
    rw [← step_summary_keys hb k]
    exact hk
  rcases step_doi_keys_fwd h7 k hk7 with hk6 | ⟨hkU, hdoi6⟩
  · rw [down6] at hk6
    rcases step_date_keys_fwd h3 k hk6 with hk2 | ⟨hkD, hcond⟩
    · rw [down2] at hk2
      exact Or.inl hk2
    · refine Or.inr (Or.inl ⟨hkD, ?_⟩)
      rcases hcond with hc | hc | hc
      · exact Or.inl (by rw [← down2]; exact hc)
      · exact Or.inr (Or.inl (by rw [← down2]; exact hc))
      · exact Or.inr (Or.inr (by rw [← down2]; exact hc))
  · rw [down6] at hdoi6
    rcases step_date_keys_fwd h3 "DOI" hdoi6 with hk2 | ⟨hkD, _⟩
    · rw [down2] at hk2
      exact Or.inr (Or.inr ⟨hkU, hk2⟩)
    · exact absurd hkD (by decide)

/-- Entry with a date range but no single date, for the C4 counterexample. -/
def entC4 : StructEntry :=
  ⟨"experience_entry", false,
    [("start_date", Value.str "2020-06"), ("end_date", Value.str "2021-06")]⟩

/-- Template set for the C4 counterexample. -/
def tplC4 : Templates := ⟨[("experience_entry", [("title", "DATE")])], "sd", "dr", "ts"⟩

/-- Claim C4 counterexample: the DATE key is computed and written into
the field map although the raw `date` attribute is absent (the entry
only has a start/end pair). -/
theorem claim_C4_counterexample :
    build_entry_fields extWitness tplC4 false entC4 =
      .ok [("START_DATE", Value.str "single:sd"), ("END_DATE", Value.str "single:sd"),
        ("DATE", Value.str "range:dr")] ∧
    hasKey [("START_DATE", Value.str "single:sd"), ("END_DATE", Value.str "single:sd"),
        ("DATE", Value.str "range:dr")] "DATE" = true ∧
    entC4.getattr? "date" = none :=
  ⟨rfl, by decide, rfl⟩

/-- Claim C4 amended: each of HIGHLIGHTS, AUTHORS, START_DATE, END_DATE,
SUMMARY, DOI is in the final field map only when its raw attribute is
non-absent; DATE is in the map only when at least one of the raw date,
start-date or end-date attributes is non-absent; URL only when the raw
url or doi attribute is non-absent. -/
theorem claim_C4_special_fields (ext : Externals) (tpl : Templates) (sts : Bool)
    (e : StructEntry) (hwf : WFEntry e) (fm : List (String × Value))
    (hb : build_entry_fields ext tpl sts e = .ok fm) :
    (hasKey fm "HIGHLIGHTS" = true → e.getattr? "highlights" ≠ none) ∧
    (hasKey fm "AUTHORS" = true → e.getattr? "authors" ≠ none) ∧
    (hasKey fm "START_DATE" = true → e.getattr? "start_date" ≠ none) ∧
    (hasKey fm "END_DATE" = true → e.getattr? "end_date" ≠ none) ∧
    (hasKey fm "SUMMARY" = true → e.getattr? "summary" ≠ none) ∧
    (hasKey fm "DOI" = true → e.getattr? "doi" ≠ none) ∧
    (hasKey fm "DATE" = true → (e.getattr? "date" ≠ none ∨
      e.getattr? "start_date" ≠ none ∨ e.getattr? "end_date" ≠ none)) ∧
    (hasKey fm "URL" = true → (e.getattr? "url" ≠ none ∨ e.getattr? "doi" ≠ none)) := by
  refine ⟨?_, ?_, ?_, ?_, ?_, ?_, ?_, ?_⟩
  · intro hk
    rcases build_keys_fwd hb "HIGHLIGHTS" hk with h | ⟨h2, _⟩ | ⟨h2, _⟩
    · exact getattr_ne_none_of_hasKey hwf (by decide) h
    · exact absurd h2 (by decide)
    · exact absurd h2 (by decide)
  · intro hk
    rcases build_keys_fwd hb "AUTHORS" hk with h | ⟨h2, _⟩ | ⟨h2, _⟩
    · exact getattr_ne_none_of_hasKey hwf (by decide) h
    · exact absurd h2 (by decide)
    · exact absurd h2 (by decide)
  · intro hk
    rcases build_keys_fwd hb "START_DATE" hk with h | ⟨h2, _⟩ | ⟨h2, _⟩
    · exact getattr_ne_none_of_hasKey hwf (by decide) h
    · exact absurd h2 (by decide)
    · exact absurd h2 (by decide)
  · intro hk
    rcases build_keys_fwd hb "END_DATE" hk with h | ⟨h2, _⟩ | ⟨h2, _⟩
    · exact getattr_ne_none_of_hasKey hwf (by decide) h
    · exact absurd h2 (by decide)
    · exact absurd h2 (by decide)
  · intro hk
    rcases build_keys_fwd hb "SUMMARY" hk with h | ⟨h2, _⟩ | ⟨h2, _⟩
    · exact getattr_ne_none_of_hasKey hwf (by decide) h
    · exact absurd h2 (by decide)
    · exact absurd h2 (by decide)
  · intro hk
    rcases build_keys_fwd hb "DOI" hk with h | ⟨h2, _⟩ | ⟨h2, _⟩
    · exact getattr_ne_none_of_hasKey hwf (by decide) h
    · exact absurd h2 (by decide)
    · exact absurd h2 (by decide)
  · intro hk
    rcases build_keys_fwd hb "DATE" hk with h | ⟨_, h2⟩ | ⟨h2, _⟩
    · exact Or.inl (getattr_ne_none_of_hasKey hwf (by decide) h)
    · rcases h2 with h3 | h3 | h3
      · exact Or.inl (getattr_ne_none_of_hasKey hwf (by decide) h3)
      · exact Or.inr (Or.inl (getattr_ne_none_of_hasKey hwf (by decide) h3))
      · exact Or.inr (Or.inr (getattr_ne_none_of_hasKey hwf (by decide) h3))
    · exact absurd h2 (by decide)
  · intro hk
    rcases build_keys_fwd hb "URL" hk with h | ⟨h2, _⟩ | ⟨_, h2⟩
    · exact Or.inl (getattr_ne_none_of_hasKey hwf (by decide) h)
    · exact absurd h2 (by decide)
    · exact Or.inr (getattr_ne_none_of_hasKey hwf (by decide) h2)

/-- Witness for the amended claim C4 at the concrete date-range entry. -/
theorem claim_C4_special_fields_witness :
    (hasKey [("START_DATE", Value.str "single:sd"), ("END_DATE", Value.str "single:sd"),
        ("DATE", Value.str "range:dr")] "HIGHLIGHTS" = true →
      entC4.getattr? "highlights" ≠ none) ∧
    (hasKey [("START_DATE", Value.str "single:sd"), ("END_DATE", Value.str "single:sd"),
        ("DATE", Value.str "range:dr")] "AUTHORS" = true →
      entC4.getattr? "authors" ≠ none) ∧
    (hasKey [("START_DATE", Value.str "single:sd"), ("END_DATE", Value.str "single:sd"),
        ("DATE", Value.str "range:dr")] "START_DATE" = true →
      entC4.getattr? "start_date" ≠ none) ∧
    (hasKey [("START_DATE", Value.str "single:sd"), ("END_DATE", Value.str "single:sd"),
        ("DATE", Value.str "range:dr")] "END_DATE" = true →
      entC4.getattr? "end_date" ≠ none) ∧
    (hasKey [("START_DATE", Value.str "single:sd"), ("END_DATE", Value.str "single:sd"),
        ("DATE", Value.str "range:dr")] "SUMMARY" = true →
      entC4.getattr? "summary" ≠ none) ∧
    (hasKey [("START_DATE", Value.str "single:sd"), ("END_DATE", Value.str "single:sd"),
        ("DATE", Value.str "range:dr")] "DOI" = true →
      entC4.getattr? "doi" ≠ none) ∧
    (hasKey [("START_DATE", Value.str "single:sd"), ("END_DATE", Value.str "single:sd"),
        ("DATE", Value.str "range:dr")] "DATE" = true →
      (entC4.getattr? "date" ≠ none ∨ entC4.getattr? "start_date" ≠ none ∨
        entC4.getattr? "end_date" ≠ none)) ∧
    (hasKey [("START_DATE", Value.str "single:sd"), ("END_DATE", Value.str "single:sd"),
        ("DATE", Value.str "range:dr")] "URL" = true →
      (entC4.getattr? "url" ≠ none ∨ entC4.getattr? "doi" ≠ none)) :=
  claim_C4_special_fields extWitness tplC4 false entC4 (by unfold WFEntry; decide)
    [("START_DATE", Value.str "single:sd"), ("END_DATE", Value.str "single:sd"),
      ("DATE", Value.str "range:dr")] rfl
